import Mathlib

/-!
Verification development for the cpython-build-assist scripts
(`install_cpython.py` and `install_all_minor_versions.py`).

The scripts select, for each (major, minor) line of a list of git tags, the
tag with the greatest semantic version (optionally restricted to lie between
a minimum and a maximum bound), then drive an external build toolchain for
each selected tag in `sorted(..., reverse=True)` order, restoring the
original ref at the end.

The development shallowly embeds:
 * semantic versions and the precedence order of the `semantic_version`
   library used by the scripts (`Version`, `Version.comparePrec`);
 * the strict `semantic_version.Version` string parser (`parseVersion`);
 * the pure selection pipeline (`normalize_version`,
   `get_latest_minor_versions`, the bound filters of `install_cpython.py`'s
   main, and `get_latest_minor_versions_all` of
   `install_all_minor_versions.py`);
 * the effectful part of both mains as a state-threading run monad over an
   environment assigning an exit code and a stdout to every external
   command invocation (`RunM`, `mainC`, `mainA`).
-/

/-- Python exception kinds raised by the modelled code paths. -/
inductive PyExc where
  | osError
  | calledProcessError
  | valueError
  | indexError
deriving DecidableEq, Repr

/-- A prerelease identifier of a semantic version: the `semantic_version`
library compares purely numeric identifiers as integers and all others as
strings, with numeric identifiers ordered below alphanumeric ones. -/
inductive PreId where
  | num (n : Nat)
  | alpha (s : String)
deriving DecidableEq, Repr

/-- A parsed semantic version as produced by `semantic_version.Version`:
`major.minor.patch`, an optional dot-separated prerelease, and optional
build metadata (the latter is ignored by the precedence order). -/
structure Version where
  major : Nat
  minor : Nat
  patch : Nat
  pre : List PreId
  build : List String
deriving DecidableEq, Repr

/-- Three-way comparison induced by a linear order (used for the `int` and
`str` comparisons Python performs inside version precedence). -/
def cmpLin {α : Type} [LinearOrder α] (a b : α) : Ordering :=
  if a < b then .lt else if a = b then .eq else .gt

theorem cmpLin_lt_iff {α : Type} [LinearOrder α] {a b : α} :
    cmpLin a b = .lt ↔ a < b := by
  unfold cmpLin
  split
  · simp [*]
  · split <;> simp_all
theorem cmpLin_eq_iff {α : Type} [LinearOrder α] {a b : α} :
    cmpLin a b = .eq ↔ a = b := by
  unfold cmpLin
  split
  · constructor
    · intro h; cases h
    · intro h; subst h; simp_all
  · split <;> simp_all

theorem cmpLin_gt_iff {α : Type} [LinearOrder α] {a b : α} :
    cmpLin a b = .gt ↔ b < a := by
  unfold cmpLin
  split
  · constructor
    · intro h; cases h
    · intro h; exact absurd (lt_trans h ‹a < b›) (lt_irrefl _)
  · split
    · subst ‹a = b›; simp
    · simp [lt_of_le_of_ne (le_of_not_lt ‹¬ a < b›) (Ne.symm ‹¬ a = b›)]

theorem cmpLin_swap {α : Type} [LinearOrder α] (a b : α) :
    cmpLin b a = (cmpLin a b).swap := by
  rcases lt_trichotomy a b with h | h | h
  · rw [cmpLin_lt_iff.2 h, show cmpLin b a = .gt from cmpLin_gt_iff.2 h]; rfl
  · subst h; rw [cmpLin_eq_iff.2 rfl]; rfl
  · rw [show cmpLin a b = .gt from cmpLin_gt_iff.2 h, cmpLin_lt_iff.2 h]; rfl

/-- Comparison of prerelease identifiers: numeric identifiers compare as
integers and sort below alphanumeric identifiers, which compare as strings
(this is the `NumericIdentifier` / `AlphaIdentifier` order of the
`semantic_version` library). -/
def PreId.cmp : PreId → PreId → Ordering
  | .num a, .num b => cmpLin a b
  | .num _, .alpha _ => .lt
  | .alpha _, .num _ => .gt
  | .alpha a, .alpha b => cmpLin a b

theorem PreId.cmp_eq_iff : ∀ {a b : PreId}, PreId.cmp a b = .eq ↔ a = b
  | .num a, .num b => by
    rw [show PreId.cmp (.num a) (.num b) = cmpLin a b from rfl, cmpLin_eq_iff]
    exact ⟨fun h => by rw [h], fun h => by cases h; rfl⟩
  | .num _, .alpha _ => by
    constructor
    · intro h; cases h
    · intro h; cases h
  | .alpha _, .num _ => by
    constructor
    · intro h; cases h
    · intro h; cases h
  | .alpha a, .alpha b => by
    rw [show PreId.cmp (.alpha a) (.alpha b) = cmpLin a b from rfl, cmpLin_eq_iff]
    exact ⟨fun h => by rw [h], fun h => by cases h; rfl⟩

theorem PreId.cmp_swap : ∀ (a b : PreId), PreId.cmp b a = (PreId.cmp a b).swap
  | .num a, .num b => cmpLin_swap a b
  | .num _, .alpha _ => rfl
  | .alpha _, .num _ => rfl
  | .alpha a, .alpha b => cmpLin_swap a b

theorem PreId.cmp_lt_trans : ∀ {a b c : PreId},
    PreId.cmp a b = .lt → PreId.cmp b c = .lt → PreId.cmp a c = .lt
  | .num a, .num b, .num c, h1, h2 =>
    cmpLin_lt_iff.2 (lt_trans (cmpLin_lt_iff.1 h1) (cmpLin_lt_iff.1 h2))
  | .num _, .num _, .alpha _, _, _ => rfl
  | .num _, .alpha _, .num _, _, h2 => by cases h2
  | .num _, .alpha _, .alpha _, _, _ => rfl
  | .alpha _, .num _, _, h1, _ => by cases h1
  | .alpha a, .alpha b, .num c, _, h2 => by cases h2
  | .alpha a, .alpha b, .alpha c, h1, h2 =>
    cmpLin_lt_iff.2 (lt_trans (cmpLin_lt_iff.1 h1) (cmpLin_lt_iff.1 h2))

/-- Lexicographic comparison of two identifier tuples, the shorter tuple
sorting first when it is a prefix of the other (Python tuple comparison). -/
def cmpIds : List PreId → List PreId → Ordering
  | [], [] => .eq
  | [], _ :: _ => .lt
  | _ :: _, [] => .gt
  | a :: as, b :: bs =>
    match PreId.cmp a b with
    | .eq => cmpIds as bs
    | o => o

theorem cmpIds_eq_iff : ∀ {a b : List PreId}, cmpIds a b = .eq ↔ a = b
  | [], [] => by simp [cmpIds]
  | [], _ :: _ => by simp [cmpIds]
  | _ :: _, [] => by simp [cmpIds]
  | a :: as, b :: bs => by
    simp only [cmpIds]
    rcases h : PreId.cmp a b with _ | _ | _
    · simp only []
      constructor
      · intro hh; cases hh
      · intro hh
        rw [List.cons.injEq] at hh
        rw [PreId.cmp_eq_iff.2 hh.1] at h
        cases h
    · rw [cmpIds_eq_iff]
      have := PreId.cmp_eq_iff.1 h
      subst this
      simp
    · simp only []
      constructor
      · intro hh; cases hh
      · intro hh
        rw [List.cons.injEq] at hh
        rw [PreId.cmp_eq_iff.2 hh.1] at h
        cases h

theorem cmpIds_swap : ∀ (a b : List PreId), cmpIds b a = (cmpIds a b).swap
  | [], [] => rfl
  | [], _ :: _ => rfl
  | _ :: _, [] => rfl
  | a :: as, b :: bs => by
    simp only [cmpIds, PreId.cmp_swap a b]
    rcases PreId.cmp a b with _ | _ | _ <;> simp [Ordering.swap, cmpIds_swap as bs]

theorem cmpIds_lt_trans : ∀ {a b c : List PreId},
    cmpIds a b = .lt → cmpIds b c = .lt → cmpIds a c = .lt
  | [], [], _, h1, _ => by cases h1
  | [], _ :: _, [], _, h2 => by cases h2
  | [], _ :: _, _ :: _, _, _ => rfl
  | _ :: _, [], _, h1, _ => by cases h1
  | _ :: _, _ :: _, [], _, h2 => by cases h2
  | a :: as, b :: bs, c :: cs, h1, h2 => by
    simp only [cmpIds] at h1 h2 ⊢
    rcases hab : PreId.cmp a b with _ | _ | _ <;> rw [hab] at h1 <;>
      rcases hbc : PreId.cmp b c with _ | _ | _ <;> rw [hbc] at h2
    · rw [show PreId.cmp a c = .lt from PreId.cmp_lt_trans hab hbc]
    · have e := PreId.cmp_eq_iff.1 hbc
      subst e
      rw [hab]
    · exact Ordering.noConfusion h2
    · have e := PreId.cmp_eq_iff.1 hab
      subst e
      rw [hbc]
    · have e1 := PreId.cmp_eq_iff.1 hab
      have e2 := PreId.cmp_eq_iff.1 hbc
      subst e1; subst e2
      rw [PreId.cmp_eq_iff.2 rfl]
      exact cmpIds_lt_trans h1 h2
    · exact Ordering.noConfusion h2
    · exact Ordering.noConfusion h1
    · exact Ordering.noConfusion h1
    · exact Ordering.noConfusion h1

/-- Comparison of prerelease components: a release (empty prerelease) has
higher precedence than any prerelease; two prereleases compare
identifier-wise.  This mirrors the `MaxIdentifier` sentinel the
`semantic_version` library appends for releases. -/
def cmpPre : List PreId → List PreId → Ordering
  | [], [] => .eq
  | [], _ :: _ => .gt
  | _ :: _, [] => .lt
  | a :: as, b :: bs => cmpIds (a :: as) (b :: bs)

theorem cmpPre_eq_iff : ∀ {a b : List PreId}, cmpPre a b = .eq ↔ a = b
  | [], [] => by simp [cmpPre]
  | [], _ :: _ => by simp [cmpPre]
  | _ :: _, [] => by simp [cmpPre]
  | _ :: _, _ :: _ => by simp [cmpPre, cmpIds_eq_iff]

theorem cmpPre_swap : ∀ (a b : List PreId), cmpPre b a = (cmpPre a b).swap
  | [], [] => rfl
  | [], _ :: _ => rfl
  | _ :: _, [] => rfl
  | _ :: _, _ :: _ => cmpIds_swap _ _

theorem cmpPre_lt_trans : ∀ {a b c : List PreId},
    cmpPre a b = .lt → cmpPre b c = .lt → cmpPre a c = .lt
  | [], [], _, h1, _ => by cases h1
  | [], _ :: _, _, h1, _ => by cases h1
  | _ :: _, [], [], _, h2 => by cases h2
  | _ :: _, [], _ :: _, _, h2 => by cases h2
  | _ :: _, _ :: _, [], _, _ => rfl
  | _ :: _, _ :: _, _ :: _, h1, h2 => cmpIds_lt_trans h1 h2

/-- Sequencing of comparisons, as in Python tuple comparison: the second
component decides only when the first is equal. -/
def othen : Ordering → Ordering → Ordering
  | .eq, y => y
  | x, _ => x

theorem othen_eq_iff {x y : Ordering} : othen x y = .eq ↔ x = .eq ∧ y = .eq := by
  cases x <;> simp [othen]

theorem othen_lt_iff {x y : Ordering} :
    othen x y = .lt ↔ x = .lt ∨ (x = .eq ∧ y = .lt) := by
  cases x <;> simp [othen]

theorem othen_swap (x y : Ordering) : othen x.swap y.swap = (othen x y).swap := by
  cases x <;> rfl

theorem othen_lt_trans {x1 y1 x2 y2 x3 y3 : Ordering}
    (hll : x1 = .lt → x2 = .lt → x3 = .lt)
    (hle : x1 = .lt → x2 = .eq → x3 = .lt)
    (hel : x1 = .eq → x2 = .lt → x3 = .lt)
    (hee : x1 = .eq → x2 = .eq → x3 = .eq)
    (hy : y1 = .lt → y2 = .lt → y3 = .lt) :
    othen x1 y1 = .lt → othen x2 y2 = .lt → othen x3 y3 = .lt := by
  intro h1 h2
  rcases othen_lt_iff.1 h1 with hx1 | ⟨hx1, hy1⟩ <;>
    rcases othen_lt_iff.1 h2 with hx2 | ⟨hx2, hy2⟩
  · exact othen_lt_iff.2 (Or.inl (hll hx1 hx2))
  · exact othen_lt_iff.2 (Or.inl (hle hx1 hx2))
  · exact othen_lt_iff.2 (Or.inl (hel hx1 hx2))
  · exact othen_lt_iff.2 (Or.inr ⟨hee hx1 hx2, hy hy1 hy2⟩)

theorem cmpLin_trans_ll {α : Type} [LinearOrder α] {a b c : α} :
    cmpLin a b = .lt → cmpLin b c = .lt → cmpLin a c = .lt := fun h1 h2 =>
  cmpLin_lt_iff.2 (lt_trans (cmpLin_lt_iff.1 h1) (cmpLin_lt_iff.1 h2))

theorem cmpLin_trans_le {α : Type} [LinearOrder α] {a b c : α} :
    cmpLin a b = .lt → cmpLin b c = .eq → cmpLin a c = .lt := fun h1 h2 => by
  have e := cmpLin_eq_iff.1 h2
  subst e
  exact h1

theorem cmpLin_trans_el {α : Type} [LinearOrder α] {a b c : α} :
    cmpLin a b = .eq → cmpLin b c = .lt → cmpLin a c = .lt := fun h1 h2 => by
  have e := cmpLin_eq_iff.1 h1
  subst e
  exact h2

theorem cmpLin_trans_ee {α : Type} [LinearOrder α] {a b c : α} :
    cmpLin a b = .eq → cmpLin b c = .eq → cmpLin a c = .eq := fun h1 h2 => by
  have e := cmpLin_eq_iff.1 h1
  subst e
  exact h2

/-- Precedence comparison of two versions, exactly as the
`semantic_version` library orders `Version` objects: compare
(major, minor, patch) numerically, then the prerelease component; build
metadata is ignored. -/
def Version.comparePrec (a b : Version) : Ordering :=
  othen (cmpLin a.major b.major)
    (othen (cmpLin a.minor b.minor)
      (othen (cmpLin a.patch b.patch) (cmpPre a.pre b.pre)))

theorem comparePrec_eq_iff {a b : Version} :
    Version.comparePrec a b = .eq ↔
      a.major = b.major ∧ a.minor = b.minor ∧ a.patch = b.patch ∧ a.pre = b.pre := by
  unfold Version.comparePrec
  rw [othen_eq_iff, othen_eq_iff, othen_eq_iff, cmpLin_eq_iff, cmpLin_eq_iff,
    cmpLin_eq_iff, cmpPre_eq_iff]

theorem comparePrec_swap (a b : Version) :
    Version.comparePrec b a = (Version.comparePrec a b).swap := by
  unfold Version.comparePrec
  rw [cmpLin_swap a.major b.major, cmpLin_swap a.minor b.minor,
    cmpLin_swap a.patch b.patch, cmpPre_swap a.pre b.pre, othen_swap, othen_swap,
    othen_swap]

theorem comparePrec_refl (a : Version) : Version.comparePrec a a = .eq :=
  comparePrec_eq_iff.2 ⟨rfl, rfl, rfl, rfl⟩

theorem comparePrec_lt_trans {a b c : Version} :
    Version.comparePrec a b = .lt → Version.comparePrec b c = .lt →
    Version.comparePrec a c = .lt := by
  unfold Version.comparePrec
  exact othen_lt_trans cmpLin_trans_ll cmpLin_trans_le cmpLin_trans_el cmpLin_trans_ee
    (othen_lt_trans cmpLin_trans_ll cmpLin_trans_le cmpLin_trans_el cmpLin_trans_ee
      (othen_lt_trans cmpLin_trans_ll cmpLin_trans_le cmpLin_trans_el cmpLin_trans_ee
        cmpPre_lt_trans))

theorem comparePrec_congr_left {a b : Version} (h : Version.comparePrec a b = .eq)
    (c : Version) : Version.comparePrec a c = Version.comparePrec b c := by
  obtain ⟨h1, h2, h3, h4⟩ := comparePrec_eq_iff.1 h
  simp only [Version.comparePrec, h1, h2, h3, h4]

theorem comparePrec_congr_right {a b : Version} (h : Version.comparePrec a b = .eq)
    (c : Version) : Version.comparePrec c a = Version.comparePrec c b := by
  obtain ⟨h1, h2, h3, h4⟩ := comparePrec_eq_iff.1 h
  simp only [Version.comparePrec, h1, h2, h3, h4]

theorem comparePrec_lt_of_lt_of_le {a b c : Version}
    (h1 : Version.comparePrec a b = .lt) (h2 : Version.comparePrec b c ≠ .gt) :
    Version.comparePrec a c = .lt := by
  rcases h : Version.comparePrec b c with _ | _ | _
  · exact comparePrec_lt_trans h1 h
  · rw [← comparePrec_congr_right h a]
    exact h1
  · exact absurd h h2

theorem comparePrec_lt_of_le_of_lt {a b c : Version}
    (h1 : Version.comparePrec a b ≠ .gt) (h2 : Version.comparePrec b c = .lt) :
    Version.comparePrec a c = .lt := by
  rcases h : Version.comparePrec a b with _ | _ | _
  · exact comparePrec_lt_trans h h2
  · rw [comparePrec_congr_left h c]; exact h2
  · exact absurd h h1

/-- Boolean strict precedence `a < b`, the comparison Python performs for
`max(..., key=lambda x: x[1])`. -/
def versionLt (a b : Version) : Bool := decide (Version.comparePrec a b = .lt)

/-- Boolean `a >= b` on versions, the comparison of the minimum bound
filter (`version >= Version(minimum)`). -/
def versionGe (a b : Version) : Bool := !(decide (Version.comparePrec a b = .lt))

/-- Boolean `a <= b` on versions, the comparison of the maximum bound
filter (`version <= Version(maximum)`). -/
def versionLe (a b : Version) : Bool := !(decide (Version.comparePrec a b = .gt))

theorem versionLt_iff {a b : Version} :
    versionLt a b = true ↔ Version.comparePrec a b = .lt := by
  simp [versionLt]

theorem versionLt_eq_false_iff {a b : Version} :
    versionLt a b = false ↔ Version.comparePrec a b ≠ .lt := by
  simp [versionLt]

theorem versionGe_iff {a b : Version} :
    versionGe a b = true ↔ Version.comparePrec a b ≠ .lt := by
  simp [versionGe]

theorem versionGe_eq_false_iff {a b : Version} :
    versionGe a b = false ↔ Version.comparePrec a b = .lt := by
  simp [versionGe]

theorem versionLe_iff {a b : Version} :
    versionLe a b = true ↔ Version.comparePrec a b ≠ .gt := by
  simp [versionLe]

/-! ### The strict semantic-version parser

`safe_parse_version` in both scripts wraps the strict
`semantic_version.Version` constructor, which accepts exactly
`major.minor.patch` with optional `-prerelease` and `+build` suffixes drawn
from `[0-9a-zA-Z.-]`, rejects leading zeroes in numeric components, and
rejects empty identifiers.  The constructor raises `ValueError` on any
other input, which `safe_parse_version` turns into `None`. -/

/-- Characters admitted by the version suffix character class `[0-9a-zA-Z.-]`. -/
def isVerChar (c : Char) : Bool := c.isDigit || c.isAlpha || c == '-' || c == '.'

/-- Python `len(value) > 1 and value[0] == '0'`: a numeric component with a
leading zero, rejected by the strict parser. -/
def hasLeadingZero : List Char → Bool
  | c :: _ :: _ => c == '0'
  | _ => false

/-- Numeric value of a list of decimal digit characters (Python `int(...)`). -/
def digitsVal (ds : List Char) : Nat :=
  ds.foldl (fun n c => 10 * n + (c.toNat - 48)) 0

/-- Parse a dot-separated prerelease component: identifiers must be
non-empty, and purely numeric identifiers must have no leading zero and
become integer identifiers. -/
def parsePreIds (cs : List Char) : Option (List PreId) :=
  if cs.isEmpty then none
  else
    let parts := cs.splitOnP (· == '.')
    if parts.any (·.isEmpty) then none
    else if parts.any (fun p => p.all Char.isDigit && hasLeadingZero p) then none
    else
      some (parts.map (fun p =>
        if p.all Char.isDigit then PreId.num (digitsVal p) else PreId.alpha (String.mk p)))

/-- Parse a dot-separated build component: identifiers must be non-empty
(leading zeroes are allowed here). -/
def parseBuild (cs : List Char) : Option (List String) :=
  if cs.isEmpty then none
  else
    let parts := cs.splitOnP (· == '.')
    if parts.any (·.isEmpty) then none
    else some (parts.map String.mk)

/-- Parse the optional `-prerelease` / `+build` suffix after the patch
component. -/
def parseSuffix (r : List Char) (ma mi pa : Nat) : Option Version :=
  match r with
  | [] => some ⟨ma, mi, pa, [], []⟩
  | '-' :: rest =>
    let (preCs, bRest) := rest.span (fun c => c != '+')
    if !(preCs.all isVerChar) then none
    else
      match parsePreIds preCs with
      | none => none
      | some pre =>
        match bRest with
        | [] => some ⟨ma, mi, pa, pre, []⟩
        | '+' :: bs =>
          if !(bs.all isVerChar) then none
          else (parseBuild bs).map (fun b => ⟨ma, mi, pa, pre, b⟩)
        | _ :: _ => none
  | '+' :: bs =>
    if !(bs.all isVerChar) then none
    else (parseBuild bs).map (fun b => ⟨ma, mi, pa, [], b⟩)
  | _ => none

/-- Modelled from the external `semantic_version` library: the strict
`Version(version_string)` constructor, returning `none` where the library
raises `ValueError`. -/
def parseVersion (s : String) : Option Version :=
  let (dmaj, r1) := s.data.span Char.isDigit
  if dmaj.isEmpty || hasLeadingZero dmaj then none
  else
    match r1 with
    | '.' :: r2 =>
      let (dmin, r3) := r2.span Char.isDigit
      if dmin.isEmpty || hasLeadingZero dmin then none
      else
        match r3 with
        | '.' :: r4 =>
          let (dpat, r5) := r4.span Char.isDigit
          if dpat.isEmpty || hasLeadingZero dpat then none
          else parseSuffix r5 (digitsVal dmaj) (digitsVal dmin) (digitsVal dpat)
        | _ => none
    | _ => none

/-- `safe_parse_version` of both scripts: `Version(version_str)`, with
`ValueError` mapped to `None`. -/
def safe_parse_version (version_str : String) : Option Version :=
  parseVersion version_str

/-- `normalize_version` of both scripts.  `version_tag[0]` raises
`IndexError` when the tag is the empty string; otherwise an optional
leading `v` is stripped before parsing. -/
def normalize_version (version_tag : String) : Except PyExc (String × Option Version) :=
  match version_tag.data with
  | [] => .error .indexError
  | c :: rest =>
    if c = 'v' then .ok (version_tag, safe_parse_version (String.mk rest))
    else .ok (version_tag, safe_parse_version version_tag)

/-! ### Grouping by minor version line

`get_latest_minor_versions` builds a Python dict keyed by the f-string
`f'{version.major}.{version.minor}'` (keys in first-occurrence order),
appends every parsed tag to its group, and maps Python `max(group,
key=lambda x: x[1])` over the groups.  The dict key is modelled as the
character list `natChars major ++ '.' :: natChars minor`, the dict-key
order as `firstDedup`, and Python `max` (which keeps the first maximal
element) as `pyMaxAux`. -/

/-- Decimal digits of `n`, most significant first, via an explicit fuel
argument so the definition is structurally recursive. -/
def natCharsAux : Nat → Nat → List Char
  | 0, _ => []
  | _ + 1, 0 => []
  | fuel + 1, n + 1 =>
    natCharsAux fuel ((n + 1) / 10) ++ [Nat.digitChar ((n + 1) % 10)]

/-- Python `f'{n}'` for a non-negative integer: its decimal representation. -/
def natChars (n : Nat) : List Char :=
  if n = 0 then ['0'] else natCharsAux (n + 1) n

/-- The dict key `f'{version.major}.{version.minor}'` of
`get_latest_minor_versions`, as a character list. -/
def minorKey (v : Version) : List Char :=
  natChars v.major ++ '.' :: natChars v.minor

/-- Keys of a Python dict comprehension: each key once, in order of first
occurrence. -/
def firstDedup {α : Type} [DecidableEq α] : List α → List α
  | [] => []
  | a :: as => a :: (firstDedup as).filter (fun b => !(decide (b = a)))

/-- Python `max(cur :: l, key=lambda x: x[1])`: fold keeping the current
element unless a strictly greater one appears, so the first maximal
element wins. -/
def pyMaxAux (cur : String × Version) : List (String × Version) → String × Version
  | [] => cur
  | y :: ys => pyMaxAux (if versionLt cur.2 y.2 then y else cur) ys

/-- Python `max(l, key=lambda x: x[1])` on a possibly-empty list. -/
def pyMax? : List (String × Version) → Option (String × Version)
  | [] => none
  | x :: xs => some (pyMaxAux x xs)

/-- Normalize and parse every tag, keeping the parseable ones: the two
list comprehensions at the top of `get_latest_minor_versions` (both
scripts).  The whole computation raises `IndexError` if any tag is the
empty string. -/
def parsedTags (versions : List String) : Except PyExc (List (String × Version)) := do
  let normed ← versions.mapM normalize_version
  pure (normed.filterMap (fun p => p.2.map (fun v => (p.1, v))))

/-- Group a parsed tag list by minor-version key and keep Python
`max(group, key=lambda x: x[1])` of each group, groups in first-occurrence
key order: the dict comprehension, append loop and `max` mapping of
`get_latest_minor_versions`. -/
def groupMax (pl : List (String × Version)) : List (String × Version) :=
  (firstDedup (pl.map (fun p => minorKey p.2))).filterMap
    (fun k => pyMax? (pl.filter (fun q => decide (minorKey q.2 = k))))

/-- `get_latest_minor_versions(versions)` of `install_cpython.py`. -/
def get_latest_minor_versions (versions : List String) :
    Except PyExc (List (String × Version)) := do
  let pl ← parsedTags versions
  pure (groupMax pl)

/-- The list comprehension
`[(t, v) for t, v in versions if v >= Version(ms)]`: the bound string is
parsed once per element, so an unparseable bound raises `ValueError` only
when the list is non-empty. -/
def geFilterAux (ms : String) : List (String × Version) → Except PyExc (List (String × Version))
  | [] => .ok []
  | p :: ps =>
    match parseVersion ms with
    | none => .error .valueError
    | some mv => do
      let rest ← geFilterAux ms ps
      pure (if versionGe p.2 mv then p :: rest else rest)

/-- The list comprehension
`[(t, v) for t, v in versions if v <= Version(xs)]` of the maximum bound
filter. -/
def leFilterAux (xs : String) : List (String × Version) → Except PyExc (List (String × Version))
  | [] => .ok []
  | p :: ps =>
    match parseVersion xs with
    | none => .error .valueError
    | some xv => do
      let rest ← leFilterAux xs ps
      pure (if versionLe p.2 xv then p :: rest else rest)

/-- Lines 100-101 of `install_cpython.py`: the minimum bound filter, only
applied when `--minimum_python_version` is not `None`. -/
def minBoundFilter (minS : Option String) (l : List (String × Version)) :
    Except PyExc (List (String × Version)) :=
  match minS with
  | none => .ok l
  | some ms => geFilterAux ms l

/-- Lines 102-103 of `install_cpython.py`: the maximum bound filter, only
applied when `--maximum_python_version` is not `None`. -/
def maxBoundFilter (maxS : Option String) (l : List (String × Version)) :
    Except PyExc (List (String × Version)) :=
  match maxS with
  | none => .ok l
  | some xs => leFilterAux xs l

/-- The whole selection pipeline of `install_cpython.py`'s main (lines
99-103): `get_latest_minor_versions` followed by the two bound filters. -/
def select_version_tags (tags : List String) (minS maxS : Option String) :
    Except PyExc (List (String × Version)) := do
  let latest ← get_latest_minor_versions tags
  let l1 ← minBoundFilter minS latest
  maxBoundFilter maxS l1

/-- `get_latest_minor_versions(versions, minimum_version)` of
`install_all_minor_versions.py`: same as the other script, except that the
minimum filter runs before grouping. -/
def get_latest_minor_versions_all (versions : List String) (minimum_version : String) :
    Except PyExc (List (String × Version)) := do
  let pl ← parsedTags versions
  let pl2 ← geFilterAux minimum_version pl
  pure (groupMax pl2)

/-- Semantic value of an optional bound argument: `some none` when the
bound is absent, `some (some v)` when it parses to `v`, `none` when the
bound string does not parse. -/
def boundVal : Option String → Option (Option Version)
  | none => some none
  | some s => (parseVersion s).map some

/-- A version lies within the (inclusive) optional bounds. -/
def withinBounds (v : Version) (minV maxV : Option Version) : Bool :=
  (match minV with
   | none => true
   | some m => versionGe v m) &&
  (match maxV with
   | none => true
   | some m => versionLe v m)

/-- Lexicographic comparison of two character lists by code point: the
order Python uses to compare `str` values. -/
def cmpChars : List Char → List Char → Ordering
  | [], [] => .eq
  | [], _ :: _ => .lt
  | _ :: _, [] => .gt
  | a :: as, b :: bs =>
    match cmpLin a b with
    | .eq => cmpChars as bs
    | o => o

/-- The relation in which Python `sorted(tags, reverse=True)` arranges the
tag strings: an earlier tag is not string-less-than a later one. -/
def strGe (a b : String) : Prop := cmpChars a.data b.data ≠ .lt

instance : DecidableRel strGe := fun a b =>
  inferInstanceAs (Decidable (cmpChars a.data b.data ≠ .lt))

/-- Python `sorted(version_tags, reverse=True)` at the head of the build
loop: the tags sorted into descending string order (Python compares `str`
lexicographically by code point, `sorted` is stable, and insertion sort
into a total preorder realises exactly that). -/
def sortedDescTags (tags : List String) : List String :=
  List.insertionSort strGe tags

/-! ### Distro detection -/

/-- The `DistroLike` enum of `install_cpython.py`. -/
inductive DistroLike where
  | Debian
  | RedHatFedora
deriving DecidableEq, Repr

/-- The enum value lookup `DistroLike(distro_like)`: `"debian"` and
`"rhel fedora"` are the two declared enum values. -/
def DistroLike.ofValue (s : List Char) : Option DistroLike :=
  if s = "debian".data then some .Debian
  else if s = "rhel fedora".data then some .RedHatFedora
  else none

/-- Python `str.split()` with no separator: split on runs of whitespace,
dropping empty tokens.  The accumulator holds the current token reversed. -/
def splitWsAux : List Char → List Char → List (List Char)
  | [], acc => if acc.isEmpty then [] else [acc.reverse]
  | c :: cs, acc =>
    if c.isWhitespace then
      if acc.isEmpty then splitWsAux cs [] else acc.reverse :: splitWsAux cs []
    else splitWsAux cs (c :: acc)

/-- Python `str.split()` with no separator. -/
def pySplitWs (cs : List Char) : List (List Char) := splitWsAux cs []

/-- Python `str.strip()`: drop leading and trailing whitespace. -/
def pyStrip (s : String) : String :=
  String.mk (((s.data.dropWhile Char.isWhitespace).reverse.dropWhile Char.isWhitespace).reverse)

/-- The `ID_LIKE=`-prefixed tokens of the whitespace-split `/etc/os-release`
content, with the prefix stripped: the list comprehension inside
`detect_distro_like`. -/
def idLikeValues (content : String) : List (List Char) :=
  (pySplitWs content.data).filterMap
    (fun line => if line.take 8 = "ID_LIKE=".data then some (line.drop 8) else none)

/-- `detect_distro_like()` of `install_cpython.py`, as a function of the
`/etc/os-release` file content: exactly one `ID_LIKE=` token must exist and
its value must be a declared `DistroLike` enum value, otherwise
`ValueError` is raised. -/
def detect_distro_like (content : String) : Except PyExc DistroLike :=
  match idLikeValues content with
  | [v] =>
    match DistroLike.ofValue v with
    | some d => .ok d
    | none => .error .valueError
  | _ => .error .valueError

/-! ### The run model

External commands are modelled by an environment that assigns an exit code
and a stdout text to the n-th external command invocation of the run.  A
run threads a state (invocation counter and event trace) and can stop with
a Python exception; `subprocess.check_output` raises
`CalledProcessError` on a non-zero exit, `safe_run_process` prints the
captured output and raises `OSError`. -/

/-- Outcome of the n-th external command invocation of a run. -/
structure Env where
  exitCode : Nat → Int
  output : Nat → String

/-- Observable events of a run: an external command invocation with its
exit code, the stdout/stderr dump `safe_run_process` prints on failure,
and ordinary `print` messages. -/
inductive Event where
  | run : String → Int → Event
  | logFail : String → Event
  | msg : String → Event
deriving DecidableEq, Repr

/-- Run state: index of the next external command invocation, and the
trace of events so far. -/
structure RState where
  next : Nat
  trace : List Event

/-- The run monad: a state-threading computation that may stop with a
Python exception.  Events produced before an exception stay in the
state, as side effects do in Python. -/
def RunM (α : Type) : Type := Env → RState → Except PyExc α × RState

instance : Monad RunM where
  pure a := fun _ s => (.ok a, s)
  bind m f := fun env s =>
    match m env s with
    | (.ok a, s') => f a env s'
    | (.error e, s') => (.error e, s')

/-- Append one event to the trace (a `print` call). -/
def emit (e : Event) : RunM Unit := fun _ s => (.ok (), ⟨s.next, s.trace ++ [e]⟩)

/-- Lift a pure possibly-raising computation into the run monad. -/
def liftE {α : Type} (e : Except PyExc α) : RunM α := fun _ s => (e, s)

/-- `subprocess.check_output(cmd.split(), ...)`: runs the command, returns
its stdout on exit code zero and raises `CalledProcessError` otherwise. -/
def check_output (cmd : String) : RunM String := fun env s =>
  let code := env.exitCode s.next
  let s' : RState := ⟨s.next + 1, s.trace ++ [.run cmd code]⟩
  if code = 0 then (.ok (env.output s.next), s') else (.error .calledProcessError, s')

/-- `safe_run_process(cmd)` of both scripts: run the command; on a
non-zero exit code print the return code and the captured stdout/stderr
and raise `OSError`. -/
def safe_run_process (cmd : String) : RunM Unit := fun env s =>
  let code := env.exitCode s.next
  if code = 0 then (.ok (), ⟨s.next + 1, s.trace ++ [.run cmd code]⟩)
  else (.error .osError, ⟨s.next + 1, s.trace ++ [.run cmd code, .logFail cmd]⟩)

/-- The `try: ... except OSError: continue` wrapper of the per-tag loop
body: an `OSError` is swallowed, any other exception propagates. -/
def catchOS (m : RunM Unit) : RunM Unit := fun env s =>
  match m env s with
  | (.error .osError, s') => (.ok (), s')
  | (.error e, s') => (.error e, s')
  | (.ok _, s') => (.ok (), s')

/-- `install_system_dependencies(distro_like)` of `install_cpython.py`
(the `else: raise` branch is unreachable with a two-valued enum). -/
def install_system_dependencies (distro_like : DistroLike) : RunM Unit :=
  match distro_like with
  | .Debian => do
    safe_run_process "apt update"
    safe_run_process "apt build-dep -y python3"
    safe_run_process ("apt install -y build-essential gdb lcov libbz2-dev libffi-dev libgdbm-dev liblzma-dev " ++
      "libncurses5-dev libreadline6-dev libsqlite3-dev libssl-dev lzma lzma-dev tk-dev uuid-dev zlib1g-dev")
  | .RedHatFedora => do
    safe_run_process "yum install -y yum-utils"
    safe_run_process "yum-builddep -y python3"

/-- The per-tag build sequence of `install_cpython.py` (lines 122-137). -/
def buildTagC (tag : String) : RunM Unit := do
  emit (.msg (">>> Getting " ++ tag))
  safe_run_process "git add -A"
  safe_run_process "git reset --hard"
  safe_run_process ("git checkout " ++ tag)
  emit (.msg (">>> Configuring " ++ tag))
  safe_run_process "./configure --enable-optimizations"
  emit (.msg (">>> Cleaning " ++ tag))
  safe_run_process "make clean"
  emit (.msg (">>> Making " ++ tag))
  safe_run_process "make -j"
  emit (.msg (">>> Installing " ++ tag))
  safe_run_process "make altinstall"

/-- The per-tag build sequence of `install_all_minor_versions.py` (lines
82-97): plain `./configure` and `make`. -/
def buildTagA (tag : String) : RunM Unit := do
  emit (.msg (">>> Getting " ++ tag))
  safe_run_process "git add -A"
  safe_run_process "git reset --hard"
  safe_run_process ("git checkout " ++ tag)
  emit (.msg (">>> Configuring " ++ tag))
  safe_run_process "./configure"
  emit (.msg (">>> Cleaning " ++ tag))
  safe_run_process "make clean"
  emit (.msg (">>> Making " ++ tag))
  safe_run_process "make"
  emit (.msg (">>> Installing " ++ tag))
  safe_run_process "make altinstall"

/-- The per-tag loop of `install_cpython.py`: each iteration's body is
wrapped in `try/except OSError: continue`. -/
def buildLoopC : List String → RunM Unit
  | [] => pure ()
  | t :: ts => do
    catchOS (buildTagC t)
    buildLoopC ts

/-- The per-tag loop of `install_all_minor_versions.py`. -/
def buildLoopA : List String → RunM Unit
  | [] => pure ()
  | t :: ts => do
    catchOS (buildTagA t)
    buildLoopA ts

/-- Command-line arguments of `install_cpython.py` (`argparse` gives the
minimum bound the default string `'3.0.0'`; both bounds are modelled as
optional to cover the `is not None` checks of the code). -/
structure ArgsC where
  minimum : Option String
  maximum : Option String
  pull : Bool

/-- Command-line arguments of `install_all_minor_versions.py`. -/
structure ArgsA where
  minimum : String
  pull : Bool

/-- Lines 98-107 of `install_cpython.py`'s main: tag discovery and
selection, then recording of the original ref (`git rev-parse HEAD`,
stripped).  Returns the selected tag strings and the recorded ref. -/
def recordRefC (args : ArgsC) : RunM (List String × String) := do
  let tagsOut ← check_output "git tag"
  let versions := (pySplitWs tagsOut.data).map String.mk
  let latest0 ← liftE (get_latest_minor_versions versions)
  let latest1 ← liftE (minBoundFilter args.minimum latest0)
  let latest2 ← liftE (maxBoundFilter args.maximum latest1)
  let version_tags := latest2.map Prod.fst
  let refOut ← check_output "git rev-parse HEAD"
  pure (version_tags, pyStrip refOut)

/-- Lines 107-118 of `install_cpython.py`'s main, after the original ref
`p.2` has been recorded: the ref message, distro detection, dependency
installation and the optional pull. -/
def afterRefC (args : ArgsC) (osRelease : String) (p : List String × String) :
    RunM (List String × String) := do
  emit (.msg (">>> Initial ref: " ++ p.2))
  emit (.msg ">>> Installing system dependencies")
  let distro ← liftE (detect_distro_like osRelease)
  install_system_dependencies distro
  if args.pull then do
    emit (.msg ">>> Pulling")
    safe_run_process "git pull"
  else
    emit (.msg ">>> Skipping pulling")
  pure p

/-- Everything `install_cpython.py`'s main does before the per-tag loop
(lines 98-118). -/
def preLoopC (args : ArgsC) (osRelease : String) : RunM (List String × String) := do
  let p ← recordRefC args
  afterRefC args osRelease p

/-- Lines 120-142 of `install_cpython.py`: the per-tag loop over the
selected tags `p.1` in `sorted(..., reverse=True)` order, then the
restoring checkout of the recorded original ref `p.2`. -/
def restC (p : List String × String) : RunM Unit := do
  buildLoopC (sortedDescTags p.1)
  emit (.msg (">>> Restoring head to " ++ p.2))
  let _ ← check_output ("git checkout " ++ p.2)
  pure ()

/-- The whole main of `install_cpython.py`: the pre-loop part, the per-tag
loop over the selected tags in `sorted(..., reverse=True)` order, and the
restoring checkout of the recorded original ref. -/
def mainC (args : ArgsC) (osRelease : String) : RunM Unit := do
  let p ← preLoopC args osRelease
  restC p

/-- Lines 67-71 of `install_all_minor_versions.py`'s main: tag discovery
and selection, then recording of the original ref. -/
def recordRefA (args : ArgsA) : RunM (List String × String) := do
  let tagsOut ← check_output "git tag"
  let versions := (pySplitWs tagsOut.data).map String.mk
  let latest ← liftE (get_latest_minor_versions_all versions args.minimum)
  let version_tags := latest.map Prod.fst
  let refOut ← check_output "git rev-parse HEAD"
  pure (version_tags, pyStrip refOut)

/-- Lines 72-78 of `install_all_minor_versions.py`'s main, after the
original ref `p.2` has been recorded: the ref message and the optional
pull. -/
def afterRefA (args : ArgsA) (p : List String × String) :
    RunM (List String × String) := do
  emit (.msg (">>> Initial ref: " ++ p.2))
  if args.pull then do
    emit (.msg ">>> Pulling")
    safe_run_process "git pull"
  else
    emit (.msg ">>> Skipping pulling")
  pure p

/-- Everything `install_all_minor_versions.py`'s main does before the
per-tag loop (lines 67-78). -/
def preLoopA (args : ArgsA) : RunM (List String × String) := do
  let p ← recordRefA args
  afterRefA args p

/-- Lines 80-102 of `install_all_minor_versions.py`: the per-tag loop,
then the restoring checkout of the recorded original ref. -/
def restA (p : List String × String) : RunM Unit := do
  buildLoopA (sortedDescTags p.1)
  emit (.msg (">>> Restoring head to " ++ p.2))
  let _ ← check_output ("git checkout " ++ p.2)
  pure ()

/-- The whole main of `install_all_minor_versions.py`. -/
def mainA (args : ArgsA) : RunM Unit := do
  let p ← preLoopA args
  restA p

/-- The initial run state: no command has run, the trace is empty. -/
def initState : RState := ⟨0, []⟩

/-- Commands that belong to a per-tag build sequence. -/
def isBuildStepCmd (c : String) : Bool :=
  c == "git add -A" || c == "git reset --hard" ||
  "git checkout".data.isPrefixOf c.data || "./configure".data.isPrefixOf c.data ||
  "make".data.isPrefixOf c.data

/-- Commands that mutate the cloned repository (the working tree is also
the build tree, so configure/make write into it). -/
def mutatesRepo (c : String) : Bool := c == "git pull" || isBuildStepCmd c

/-- The event is the `git rev-parse HEAD` invocation that records the
original ref. -/
def isRevParseEv : Event → Bool
  | .run c _ => c == "git rev-parse HEAD"
  | _ => false

/-- The event is a repository-mutating external command. -/
def mutEv : Event → Bool
  | .run c _ => mutatesRepo c
  | _ => false

/-- The event is a per-tag build step command. -/
def buildStepEv : Event → Bool
  | .run c _ => isBuildStepCmd c
  | _ => false

/-- In this trace, no repository-mutating command runs before the
`git rev-parse HEAD` invocation that records the original ref. -/
def RevParseFirst (tr : List Event) : Prop :=
  ∀ e ∈ tr.takeWhile (fun ev => !(isRevParseEv ev)), mutEv e = false

/-! ### Facts about the precedence order -/

theorem comparePrec_gt_iff {a b : Version} :
    Version.comparePrec a b = .gt ↔ Version.comparePrec b a = .lt := by
  rw [comparePrec_swap a b]
  generalize Version.comparePrec a b = o
  cases o <;> simp [Ordering.swap]

theorem comparePrec_ne_gt_of_ne_lt {a b : Version}
    (h : Version.comparePrec a b ≠ .lt) : Version.comparePrec b a ≠ .gt :=
  fun hc => h (comparePrec_gt_iff.1 hc)

theorem comparePrec_eq_of_not_lt_not_gt {a b : Version}
    (h1 : Version.comparePrec a b ≠ .lt) (h2 : Version.comparePrec a b ≠ .gt) :
    Version.comparePrec a b = .eq := by
  rcases h : Version.comparePrec a b with _ | _ | _
  · exact absurd h h1
  · rfl
  · exact absurd h h2

/-! ### Facts about grouping and maxima -/

theorem firstDedup_mem {α : Type} [DecidableEq α] :
    ∀ {l : List α} {a : α}, a ∈ firstDedup l ↔ a ∈ l
  | [], a => by simp [firstDedup]
  | b :: bs, a => by
    simp only [firstDedup, List.mem_cons, List.mem_filter,
      firstDedup_mem (l := bs) (a := a)]
    by_cases hab : a = b
    · simp [hab]
    · simp [hab]

theorem pyMaxAux_mem :
    ∀ (l : List (String × Version)) (cur : String × Version),
      pyMaxAux cur l ∈ cur :: l
  | [], cur => by simp [pyMaxAux]
  | y :: ys, cur => by
    rw [show pyMaxAux cur (y :: ys) = pyMaxAux (if versionLt cur.2 y.2 then y else cur) ys
      from rfl]
    have h := pyMaxAux_mem ys (if versionLt cur.2 y.2 then y else cur)
    rcases List.mem_cons.1 h with h | h
    · rw [h]
      split <;> simp
    · simp [h]

theorem pyMaxAux_notLt :
    ∀ (l : List (String × Version)) (cur : String × Version),
      ∀ y ∈ cur :: l, versionLt (pyMaxAux cur l).2 y.2 = false
  | [], cur => by
    intro y hy
    rcases List.mem_cons.1 hy with h | h
    · subst h
      refine versionLt_eq_false_iff.2 ?_
      show Version.comparePrec y.2 y.2 ≠ Ordering.lt
      rw [comparePrec_refl]
      intro hc
      cases hc
    · cases h
  | z :: t, cur => by
    intro y hy
    rw [show pyMaxAux cur (z :: t) = pyMaxAux (if versionLt cur.2 z.2 then z else cur) t
      from rfl]
    by_cases hlt : versionLt cur.2 z.2 = true
    · rw [if_pos hlt]
      rcases List.mem_cons.1 hy with h | h
      · subst h
        have hz := pyMaxAux_notLt t z z (List.mem_cons_self z t)
        rw [versionLt_eq_false_iff] at hz ⊢
        intro hc
        exact hz (comparePrec_lt_trans hc (versionLt_iff.1 hlt))
      · exact pyMaxAux_notLt t z y h
    · rw [if_neg hlt]
      rcases List.mem_cons.1 hy with h | h
      · subst h
        exact pyMaxAux_notLt t y y (List.mem_cons_self y t)
      · rcases List.mem_cons.1 h with h | h
        · subst h
          have hc := pyMaxAux_notLt t cur cur (List.mem_cons_self cur t)
          rw [Bool.not_eq_true] at hlt
          rw [versionLt_eq_false_iff] at hc ⊢
          rw [versionLt_eq_false_iff] at hlt
          intro hres
          exact hc (comparePrec_lt_of_lt_of_le hres (comparePrec_ne_gt_of_ne_lt hlt))
        · exact pyMaxAux_notLt t cur y (List.mem_cons_of_mem cur h)

theorem pyMax?_spec {g : List (String × Version)} {m : String × Version}
    (h : pyMax? g = some m) :
    m ∈ g ∧ ∀ y ∈ g, versionLt m.2 y.2 = false := by
  match g, h with
  | x :: xs, h =>
    have hm : pyMaxAux x xs = m := Option.some.inj h
    subst hm
    exact ⟨pyMaxAux_mem xs x, fun y hy => pyMaxAux_notLt xs x y hy⟩

theorem pyMax?_of_ne_nil {g : List (String × Version)} (h : g ≠ []) :
    ∃ m, pyMax? g = some m := by
  match g, h with
  | x :: xs, _ => exact ⟨pyMaxAux x xs, rfl⟩

theorem mem_groupMax {pl : List (String × Version)} {e : String × Version} :
    e ∈ groupMax pl ↔
      ∃ k, k ∈ pl.map (fun p => minorKey p.2) ∧
        pyMax? (pl.filter (fun q => decide (minorKey q.2 = k))) = some e := by
  unfold groupMax
  rw [List.mem_filterMap]
  constructor
  · rintro ⟨k, hk, hmax⟩
    exact ⟨k, firstDedup_mem.1 hk, hmax⟩
  · rintro ⟨k, hk, hmax⟩
    exact ⟨k, firstDedup_mem.2 hk, hmax⟩

theorem groupMax_entry_key {pl : List (String × Version)} {k : List Char}
    {e : String × Version}
    (h : pyMax? (pl.filter (fun q => decide (minorKey q.2 = k))) = some e) :
    minorKey e.2 = k ∧ e ∈ pl := by
  have hm := (pyMax?_spec h).1
  rw [List.mem_filter] at hm
  exact ⟨of_decide_eq_true hm.2, hm.1⟩

/-! ### Injectivity of the minor-version dict key -/

theorem digitsVal_append (xs : List Char) (c : Char) :
    digitsVal (xs ++ [c]) = 10 * digitsVal xs + (c.toNat - 48) := by
  unfold digitsVal
  rw [List.foldl_append]
  rfl

theorem digitChar_val {d : Nat} (h : d < 10) : (Nat.digitChar d).toNat - 48 = d := by
  interval_cases d <;> rfl

theorem natCharsAux_val : ∀ (fuel n : Nat), n < fuel → digitsVal (natCharsAux fuel n) = n
  | 0, _, h => absurd h (Nat.not_lt_zero _)
  | _ + 1, 0, _ => rfl
  | fuel + 1, n + 1, h => by
    rw [show natCharsAux (fuel + 1) (n + 1) =
      natCharsAux fuel ((n + 1) / 10) ++ [Nat.digitChar ((n + 1) % 10)] from rfl]
    rw [digitsVal_append, digitChar_val (Nat.mod_lt _ (by norm_num))]
    have hdiv : (n + 1) / 10 < fuel := by
      have h1 : (n + 1) / 10 < n + 1 := Nat.div_lt_self (Nat.succ_pos n) (by norm_num)
      omega
    rw [natCharsAux_val fuel ((n + 1) / 10) hdiv]
    exact Nat.div_add_mod (n + 1) 10

theorem natChars_val (n : Nat) : digitsVal (natChars n) = n := by
  unfold natChars
  split
  · subst ‹n = 0›
    rfl
  · exact natCharsAux_val (n + 1) n (Nat.lt_succ_self n)

theorem natChars_inj {a b : Nat} (h : natChars a = natChars b) : a = b := by
  have := congrArg digitsVal h
  rwa [natChars_val, natChars_val] at this

theorem digitChar_isDigit {d : Nat} (h : d < 10) : (Nat.digitChar d).isDigit = true := by
  interval_cases d <;> rfl

theorem natCharsAux_digits :
    ∀ (fuel n : Nat), ∀ c ∈ natCharsAux fuel n, c.isDigit = true
  | 0, _, c, hc => absurd hc (List.not_mem_nil c)
  | _ + 1, 0, c, hc => absurd hc (List.not_mem_nil c)
  | fuel + 1, n + 1, c, hc => by
    rw [show natCharsAux (fuel + 1) (n + 1) =
      natCharsAux fuel ((n + 1) / 10) ++ [Nat.digitChar ((n + 1) % 10)] from rfl] at hc
    rcases List.mem_append.1 hc with h | h
    · exact natCharsAux_digits fuel ((n + 1) / 10) c h
    · rw [List.mem_singleton.1 h]
      exact digitChar_isDigit (Nat.mod_lt _ (by norm_num))

theorem natChars_no_dot {n : Nat} : '.' ∉ natChars n := by
  intro hmem
  unfold natChars at hmem
  split at hmem
  · rw [List.mem_singleton] at hmem
    cases hmem
  · have := natCharsAux_digits (n + 1) n '.' hmem
    cases this

theorem append_dot_inj :
    ∀ {a c b d : List Char}, '.' ∉ a → '.' ∉ c →
      a ++ '.' :: b = c ++ '.' :: d → a = c ∧ b = d
  | [], [], _, _, _, _, h => by
    rw [List.nil_append, List.nil_append] at h
    exact ⟨rfl, (List.cons.injEq _ _ _ _ ▸ h).2⟩
  | [], x :: xs, _, _, _, hc, h => by
    rw [List.nil_append, List.cons_append] at h
    have hx := (List.cons.injEq _ _ _ _ ▸ h).1
    exact absurd (hx ▸ List.mem_cons_self x xs) hc
  | x :: xs, [], _, _, ha, _, h => by
    rw [List.nil_append, List.cons_append] at h
    have hx := (List.cons.injEq _ _ _ _ ▸ h).1
    exact absurd (hx.symm ▸ List.mem_cons_self x xs) ha
  | x :: xs, y :: ys, b, d, ha, hc, h => by
    rw [List.cons_append, List.cons_append] at h
    have h1 := (List.cons.injEq _ _ _ _ ▸ h).1
    have h2 := (List.cons.injEq _ _ _ _ ▸ h).2
    have ih := append_dot_inj (fun hm => ha (List.mem_cons_of_mem x hm))
      (fun hm => hc (List.mem_cons_of_mem y hm)) h2
    exact ⟨by rw [h1, ih.1], ih.2⟩

theorem minorKey_inj {u v : Version} (h : minorKey u = minorKey v) :
    u.major = v.major ∧ u.minor = v.minor := by
  unfold minorKey at h
  have := append_dot_inj natChars_no_dot natChars_no_dot h
  exact ⟨natChars_inj this.1, natChars_inj this.2⟩

/-! ### Interaction of the minimum filter with the per-group maximum -/

theorem filter_swap_bool {α : Type} (p q : α → Bool) :
    ∀ l : List α, (l.filter p).filter q = (l.filter q).filter p := by
  intro l
  induction l with
  | nil => rfl
  | cons a t ih =>
    by_cases hp : p a = true <;> by_cases hq : q a = true <;>
      simp [List.filter_cons, hp, hq, ih]

theorem pyMaxAux_filter (mv : Version) :
    ∀ (l : List (String × Version)) (cur : String × Version),
      versionGe (pyMaxAux cur l).2 mv = true →
      (versionGe cur.2 mv = true →
        pyMaxAux cur (l.filter (fun p => versionGe p.2 mv)) = pyMaxAux cur l) ∧
      (versionGe cur.2 mv = false →
        pyMax? (l.filter (fun p => versionGe p.2 mv)) = some (pyMaxAux cur l))
  | [], cur => by
    intro hm
    refine ⟨fun _ => rfl, fun hc => ?_⟩
    rw [show pyMaxAux cur [] = cur from rfl] at hm
    rw [hm] at hc
    cases hc
  | y :: ys, cur => by
    intro hm
    rw [show pyMaxAux cur (y :: ys) =
      pyMaxAux (if versionLt cur.2 y.2 then y else cur) ys from rfl] at hm ⊢
    by_cases hy : versionGe y.2 mv = true
    · rw [show (y :: ys).filter (fun p => versionGe p.2 mv) =
        y :: ys.filter (fun p => versionGe p.2 mv) from by rw [List.filter_cons, if_pos hy]]
      constructor
      · intro hcur
        rw [show pyMaxAux cur (y :: ys.filter (fun p => versionGe p.2 mv)) =
          pyMaxAux (if versionLt cur.2 y.2 then y else cur)
            (ys.filter (fun p => versionGe p.2 mv)) from rfl]
        have hcur' : versionGe (if versionLt cur.2 y.2 then y else cur).2 mv = true := by
          split <;> assumption
        exact ((pyMaxAux_filter mv ys _ hm).1 hcur')
      · intro hcur
        have hlt : versionLt cur.2 y.2 = true := by
          rw [versionLt_iff]
          rw [versionGe_eq_false_iff] at hcur
          rw [versionGe_iff] at hy
          exact comparePrec_lt_of_lt_of_le hcur (comparePrec_ne_gt_of_ne_lt hy)
        rw [if_pos hlt] at hm ⊢
        rw [show pyMax? (y :: ys.filter (fun p => versionGe p.2 mv)) =
          some (pyMaxAux y (ys.filter (fun p => versionGe p.2 mv))) from rfl]
        rw [(pyMaxAux_filter mv ys y hm).1 hy]
    · rw [show (y :: ys).filter (fun p => versionGe p.2 mv) =
        ys.filter (fun p => versionGe p.2 mv) from by
          rw [List.filter_cons, if_neg (by simp [hy])]]
      rw [Bool.not_eq_true] at hy
      constructor
      · intro hcur
        have hnlt : versionLt cur.2 y.2 = false := by
          rw [versionLt_eq_false_iff]
          rw [versionGe_eq_false_iff] at hy
          rw [versionGe_iff] at hcur
          intro hc
          exact hcur (comparePrec_lt_trans hc hy)
        rw [if_neg (by simp [hnlt])] at hm ⊢
        exact (pyMaxAux_filter mv ys cur hm).1 hcur
      · intro hcur
        have hcur' : versionGe (if versionLt cur.2 y.2 then y else cur).2 mv = false := by
          split <;> assumption
        exact (pyMaxAux_filter mv ys _ hm).2 hcur'

theorem pyMax?_filter_of_ge {g : List (String × Version)} {m : String × Version}
    {mv : Version} (h : pyMax? g = some m) (hge : versionGe m.2 mv = true) :
    pyMax? (g.filter (fun p => versionGe p.2 mv)) = some m := by
  match g, h with
  | x :: xs, h =>
    have hm : pyMaxAux x xs = m := Option.some.inj h
    subst hm
    by_cases hx : versionGe x.2 mv = true
    · rw [show (x :: xs).filter (fun p => versionGe p.2 mv) =
        x :: xs.filter (fun p => versionGe p.2 mv) from by rw [List.filter_cons, if_pos hx]]
      rw [show pyMax? (x :: xs.filter (fun p => versionGe p.2 mv)) =
        some (pyMaxAux x (xs.filter (fun p => versionGe p.2 mv))) from rfl]
      rw [(pyMaxAux_filter mv xs x hge).1 hx]
    · rw [show (x :: xs).filter (fun p => versionGe p.2 mv) =
        xs.filter (fun p => versionGe p.2 mv) from by
          rw [List.filter_cons, if_neg (by simp [hx])]]
      rw [Bool.not_eq_true] at hx
      exact (pyMaxAux_filter mv xs x hge).2 hx

theorem filter_ge_eq_nil_of_max_lt {g : List (String × Version)}
    {m : String × Version} {mv : Version} (h : pyMax? g = some m)
    (hlt : versionGe m.2 mv = false) :
    g.filter (fun p => versionGe p.2 mv) = [] := by
  rw [List.filter_eq_nil_iff]
  intro y hy
  have hmax := (pyMax?_spec h).2 y hy
  rw [versionGe_eq_false_iff] at hlt
  rw [versionLt_eq_false_iff] at hmax
  simp only [Bool.not_eq_true, versionGe_eq_false_iff]
  exact comparePrec_lt_of_le_of_lt (comparePrec_ne_gt_of_ne_lt hmax) hlt

/-! ### Evaluating the bound filters and the tag parser -/

theorem geFilterAux_ok {ms : String} {mv : Version} (hp : parseVersion ms = some mv) :
    ∀ l : List (String × Version),
      geFilterAux ms l = .ok (l.filter (fun p => versionGe p.2 mv))
  | [] => rfl
  | p :: ps => by
    rw [show geFilterAux ms (p :: ps) =
      (match parseVersion ms with
       | none => .error .valueError
       | some mv => do
          let rest ← geFilterAux ms ps
          pure (if versionGe p.2 mv then p :: rest else rest)) from rfl, hp]
    rw [geFilterAux_ok hp ps]
    rw [List.filter_cons]
    by_cases hge : versionGe p.2 mv = true <;>
      simp [hge, Bind.bind, Except.bind, pure, Except.pure]

theorem leFilterAux_ok {xs : String} {xv : Version} (hp : parseVersion xs = some xv) :
    ∀ l : List (String × Version),
      leFilterAux xs l = .ok (l.filter (fun p => versionLe p.2 xv))
  | [] => rfl
  | p :: ps => by
    rw [show leFilterAux xs (p :: ps) =
      (match parseVersion xs with
       | none => .error .valueError
       | some xv => do
          let rest ← leFilterAux xs ps
          pure (if versionLe p.2 xv then p :: rest else rest)) from rfl, hp]
    rw [leFilterAux_ok hp ps]
    rw [List.filter_cons]
    by_cases hle : versionLe p.2 xv = true <;>
      simp [hle, Bind.bind, Except.bind, pure, Except.pure]

theorem parsedTags_ok {versions : List String} (h : ∀ t ∈ versions, t ≠ "") :
    ∃ pl, parsedTags versions = .ok pl := by
  unfold parsedTags
  suffices hs : ∃ nl, versions.mapM normalize_version = .ok nl by
    obtain ⟨nl, hnl⟩ := hs
    exact ⟨_, by rw [show (do
      let normed ← versions.mapM normalize_version
      pure (normed.filterMap (fun p => p.2.map (fun v => (p.1, v))))
        : Except PyExc (List (String × Version))) =
      (versions.mapM normalize_version).bind
        (fun normed => pure (normed.filterMap (fun p => p.2.map (fun v => (p.1, v)))))
      from rfl, hnl]; rfl⟩
  induction versions with
  | nil => exact ⟨[], rfl⟩
  | cons t ts ih =>
    have ht : t ≠ "" := h t (List.mem_cons_self t ts)
    obtain ⟨nl, hnl⟩ := ih (fun x hx => h x (List.mem_cons_of_mem t hx))
    have hdata : t.data ≠ [] := by
      intro hh
      apply ht
      cases t
      exact congrArg String.mk hh
    have hnorm : ∃ q, normalize_version t = .ok q := by
      unfold normalize_version
      rcases hd : t.data with _ | ⟨c, rest⟩
      · exact absurd hd hdata
      · simp only [hd]
        by_cases hc : c = 'v' <;> simp [hc]
    obtain ⟨q, hq⟩ := hnorm
    refine ⟨q :: nl, ?_⟩
    rw [List.mapM_cons, hq, hnl]
    rfl

/-! ### Evaluating the selection pipeline -/

theorem get_latest_eq {versions : List String} {pl : List (String × Version)}
    (h : parsedTags versions = .ok pl) :
    get_latest_minor_versions versions = .ok (groupMax pl) := by
  unfold get_latest_minor_versions
  rw [show (do
      let pl ← parsedTags versions
      pure (groupMax pl) : Except PyExc (List (String × Version))) =
    (parsedTags versions).bind (fun pl => pure (groupMax pl)) from rfl, h]
  rfl

/-- The minimum bound filter as a pure list function of the parsed bound. -/
def minFilterB (minV : Option Version) (l : List (String × Version)) :
    List (String × Version) :=
  match minV with
  | none => l
  | some m => l.filter (fun e => versionGe e.2 m)

/-- The maximum bound filter as a pure list function of the parsed bound. -/
def maxFilterB (maxV : Option Version) (l : List (String × Version)) :
    List (String × Version) :=
  match maxV with
  | none => l
  | some m => l.filter (fun e => versionLe e.2 m)

theorem minBoundFilter_eq {minS : Option String} {minV : Option Version}
    (h : boundVal minS = some minV) (l : List (String × Version)) :
    minBoundFilter minS l = .ok (minFilterB minV l) := by
  rcases minS with _ | ms
  · cases Option.some.inj h
    rfl
  · rcases hp : parseVersion ms with _ | mv
    · rw [show boundVal (some ms) = (parseVersion ms).map some from rfl, hp] at h
      cases h
    · rw [show boundVal (some ms) = (parseVersion ms).map some from rfl, hp] at h
      cases Option.some.inj h
      exact geFilterAux_ok hp l

theorem maxBoundFilter_eq {maxS : Option String} {maxV : Option Version}
    (h : boundVal maxS = some maxV) (l : List (String × Version)) :
    maxBoundFilter maxS l = .ok (maxFilterB maxV l) := by
  rcases maxS with _ | xs
  · cases Option.some.inj h
    rfl
  · rcases hp : parseVersion xs with _ | xv
    · rw [show boundVal (some xs) = (parseVersion xs).map some from rfl, hp] at h
      cases h
    · rw [show boundVal (some xs) = (parseVersion xs).map some from rfl, hp] at h
      cases Option.some.inj h
      exact leFilterAux_ok hp l

theorem select_eq {tags : List String} {minS maxS : Option String}
    {pl : List (String × Version)} {minV maxV : Option Version}
    (hp : parsedTags tags = .ok pl)
    (hmin : boundVal minS = some minV) (hmax : boundVal maxS = some maxV) :
    select_version_tags tags minS maxS =
      .ok (maxFilterB maxV (minFilterB minV (groupMax pl))) := by
  unfold select_version_tags
  rw [show (do
      let latest ← get_latest_minor_versions tags
      let l1 ← minBoundFilter minS latest
      maxBoundFilter maxS l1 : Except PyExc (List (String × Version))) =
    (get_latest_minor_versions tags).bind
      (fun latest => (minBoundFilter minS latest).bind
        (fun l1 => maxBoundFilter maxS l1)) from rfl]
  rw [get_latest_eq hp]
  rw [show ((Except.ok (groupMax pl) : Except PyExc (List (String × Version))).bind
      (fun latest => (minBoundFilter minS latest).bind
        (fun l1 => maxBoundFilter maxS l1))) =
    (minBoundFilter minS (groupMax pl)).bind (fun l1 => maxBoundFilter maxS l1) from rfl]
  rw [minBoundFilter_eq hmin]
  rw [show ((Except.ok (minFilterB minV (groupMax pl)) :
      Except PyExc (List (String × Version))).bind (fun l1 => maxBoundFilter maxS l1)) =
    maxBoundFilter maxS (minFilterB minV (groupMax pl)) from rfl]
  exact maxBoundFilter_eq hmax _

theorem mem_boundFilters {l : List (String × Version)} {minV maxV : Option Version}
    {e : String × Version} :
    e ∈ maxFilterB maxV (minFilterB minV l) ↔
      e ∈ l ∧ withinBounds e.2 minV maxV = true := by
  unfold maxFilterB minFilterB withinBounds
  rcases minV with _ | m <;> rcases maxV with _ | x <;>
    simp [List.mem_filter, and_assoc, Bool.and_eq_true, and_comm]

theorem withinBounds_congr {u v : Version} (h : Version.comparePrec u v = .eq)
    (minV maxV : Option Version) :
    withinBounds u minV maxV = withinBounds v minV maxV := by
  unfold withinBounds versionGe versionLe
  rcases minV with _ | m <;> rcases maxV with _ | x <;>
    simp only [comparePrec_congr_left h]

theorem minorKey_congr {u v : Version} (h1 : u.major = v.major)
    (h2 : u.minor = v.minor) : minorKey u = minorKey v := by
  unfold minorKey
  rw [h1, h2]

theorem groupMax_subset {pl : List (String × Version)} {e : String × Version}
    (h : e ∈ groupMax pl) : e ∈ pl := by
  obtain ⟨k, _, hmax⟩ := mem_groupMax.1 h
  exact (groupMax_entry_key hmax).2

theorem groupMax_unique_pair {pl : List (String × Version)}
    {e1 e2 : String × Version} (h1 : e1 ∈ groupMax pl) (h2 : e2 ∈ groupMax pl)
    (hmaj : e1.2.major = e2.2.major) (hmin : e1.2.minor = e2.2.minor) : e1 = e2 := by
  obtain ⟨k1, hk1, hm1⟩ := mem_groupMax.1 h1
  obtain ⟨k2, hk2, hm2⟩ := mem_groupMax.1 h2
  have hkk : k1 = k2 := by
    rw [← (groupMax_entry_key hm1).1, ← (groupMax_entry_key hm2).1]
    exact minorKey_congr hmaj hmin
  subst hkk
  rw [hm1] at hm2
  exact Option.some.inj hm2

theorem groupMax_pair_max {pl : List (String × Version)} {e : String × Version}
    (h : e ∈ groupMax pl) :
    ∀ q ∈ pl, q.2.major = e.2.major → q.2.minor = e.2.minor →
      versionLt e.2 q.2 = false := by
  obtain ⟨k, hk, hmax⟩ := mem_groupMax.1 h
  intro q hq hmaj hmin
  have hqk : minorKey q.2 = k := by
    rw [← (groupMax_entry_key hmax).1]
    exact minorKey_congr hmaj hmin
  exact (pyMax?_spec hmax).2 q
    (List.mem_filter.2 ⟨hq, decide_eq_true hqk⟩)

theorem groupMax_exists_pair {pl : List (String × Version)} {p : String × Version}
    (hp : p ∈ pl) :
    ∃ e, e ∈ groupMax pl ∧ e.2.major = p.2.major ∧ e.2.minor = p.2.minor := by
  have hk : minorKey p.2 ∈ pl.map (fun q => minorKey q.2) :=
    List.mem_map.2 ⟨p, hp, rfl⟩
  have hne : pl.filter (fun q => decide (minorKey q.2 = minorKey p.2)) ≠ [] := by
    intro hnil
    have : p ∈ pl.filter (fun q => decide (minorKey q.2 = minorKey p.2)) :=
      List.mem_filter.2 ⟨hp, decide_eq_true rfl⟩
    rw [hnil] at this
    cases this
  obtain ⟨m, hm⟩ := pyMax?_of_ne_nil hne
  obtain ⟨hmk, _⟩ := groupMax_entry_key hm
  obtain ⟨hmaj, hmin⟩ := minorKey_inj hmk
  exact ⟨m, mem_groupMax.2 ⟨minorKey p.2, hk, hm⟩, hmaj, hmin⟩

/-! ### Facts about the descending string order of the build loop -/

theorem cmpChars_eq_iff : ∀ {a b : List Char}, cmpChars a b = .eq ↔ a = b
  | [], [] => by simp [cmpChars]
  | [], _ :: _ => by simp [cmpChars]
  | _ :: _, [] => by simp [cmpChars]
  | a :: as, b :: bs => by
    simp only [cmpChars]
    rcases h : cmpLin a b with _ | _ | _
    · simp only []
      constructor
      · intro hh; cases hh
      · intro hh
        rw [List.cons.injEq] at hh
        rw [cmpLin_eq_iff.2 hh.1] at h
        cases h
    · rw [cmpChars_eq_iff]
      have := cmpLin_eq_iff.1 h
      subst this
      simp
    · simp only []
      constructor
      · intro hh; cases hh
      · intro hh
        rw [List.cons.injEq] at hh
        rw [cmpLin_eq_iff.2 hh.1] at h
        cases h

theorem cmpChars_swap : ∀ (a b : List Char), cmpChars b a = (cmpChars a b).swap
  | [], [] => rfl
  | [], _ :: _ => rfl
  | _ :: _, [] => rfl
  | a :: as, b :: bs => by
    simp only [cmpChars, cmpLin_swap a b]
    rcases cmpLin a b with _ | _ | _ <;> simp [Ordering.swap, cmpChars_swap as bs]

theorem cmpChars_lt_trans : ∀ {a b c : List Char},
    cmpChars a b = .lt → cmpChars b c = .lt → cmpChars a c = .lt
  | [], [], _, h1, _ => by cases h1
  | [], _ :: _, [], _, h2 => by cases h2
  | [], _ :: _, _ :: _, _, _ => rfl
  | _ :: _, [], _, h1, _ => by cases h1
  | _ :: _, _ :: _, [], _, h2 => by cases h2
  | a :: as, b :: bs, c :: cs, h1, h2 => by
    simp only [cmpChars] at h1 h2 ⊢
    rcases hab : cmpLin a b with _ | _ | _ <;> rw [hab] at h1 <;>
      rcases hbc : cmpLin b c with _ | _ | _ <;> rw [hbc] at h2
    · rw [show cmpLin a c = .lt from cmpLin_trans_ll hab hbc]
    · have e := cmpLin_eq_iff.1 hbc
      subst e
      rw [hab]
    · exact Ordering.noConfusion h2
    · have e := cmpLin_eq_iff.1 hab
      subst e
      rw [hbc]
    · have e1 := cmpLin_eq_iff.1 hab
      have e2 := cmpLin_eq_iff.1 hbc
      subst e1; subst e2
      rw [cmpLin_eq_iff.2 rfl]
      exact cmpChars_lt_trans h1 h2
    · exact Ordering.noConfusion h2
    · exact Ordering.noConfusion h1
    · exact Ordering.noConfusion h1
    · exact Ordering.noConfusion h1

theorem cmpChars_lt_iff_lex :
    ∀ {a b : List Char}, cmpChars a b = .lt ↔ List.Lex (· < ·) a b
  | [], [] => by
    constructor
    · intro h; cases h
    · intro h; cases h
  | [], _ :: _ => by
    constructor
    · intro _; exact List.Lex.nil
    · intro _; rfl
  | _ :: _, [] => by
    constructor
    · intro h; cases h
    · intro h; cases h
  | a :: as, b :: bs => by
    simp only [cmpChars]
    rcases h : cmpLin a b with _ | _ | _
    · constructor
      · intro _
        exact List.Lex.rel (cmpLin_lt_iff.1 h)
      · intro _
        rfl
    · have e := cmpLin_eq_iff.1 h
      subst e
      constructor
      · intro hl
        exact List.Lex.cons (cmpChars_lt_iff_lex.1 hl)
      · intro hl
        cases hl with
        | cons hl2 => exact cmpChars_lt_iff_lex.2 hl2
        | rel hr => exact absurd hr (lt_irrefl _)
    · constructor
      · intro hh
        exact Ordering.noConfusion hh
      · intro hl
        cases hl with
        | cons hl2 =>
          rw [cmpLin_eq_iff.2 rfl] at h
          exact Ordering.noConfusion h
        | rel hr =>
          rw [cmpLin_lt_iff.2 hr] at h
          exact Ordering.noConfusion h

theorem strGe_iff_not_lt {a b : String} : strGe a b ↔ ¬ a < b := by
  unfold strGe
  rw [String.lt_iff_toList_lt]
  show cmpChars a.data b.data ≠ Ordering.lt ↔ ¬ List.Lex (· < ·) a.data b.data
  exact not_congr cmpChars_lt_iff_lex

instance : IsTotal String strGe :=
  ⟨fun a b => by
    unfold strGe
    by_cases h : cmpChars a.data b.data = .lt
    · right
      rw [cmpChars_swap a.data b.data, h]
      intro hc
      cases hc
    · exact Or.inl h⟩

instance : IsTrans String strGe :=
  ⟨fun a b c hab hbc => by
    unfold strGe at hab hbc ⊢
    intro hac
    rcases h1 : cmpChars a.data b.data with _ | _ | _
    · exact hab h1
    · rw [cmpChars_eq_iff.1 h1] at hac
      exact hbc hac
    · rcases h2 : cmpChars b.data c.data with _ | _ | _
      · exact hbc h2
      · rw [cmpChars_eq_iff.1 h2] at h1
        rw [h1] at hac
        exact Ordering.noConfusion hac
      · have hba : cmpChars b.data a.data = .lt := by
          rw [cmpChars_swap a.data b.data, h1]
          rfl
        have hcb : cmpChars c.data b.data = .lt := by
          rw [cmpChars_swap b.data c.data, h2]
          rfl
        have hca := cmpChars_lt_trans hcb hba
        rw [cmpChars_swap c.data a.data, hca] at hac
        exact Ordering.noConfusion hac⟩


/-! ### Destructuring successful pipeline runs -/

theorem except_bind_ok_destruct {α β : Type} {m : Except PyExc α}
    {f : α → Except PyExc β} {b : β} (h : m.bind f = .ok b) :
    ∃ a, m = .ok a ∧ f a = .ok b := by
  cases m with
  | ok a => exact ⟨a, rfl, h⟩
  | error e => exact absurd h (by intro hh; cases hh)

theorem get_latest_all_eq {versions : List String} {ms : String} {mv : Version}
    {pl : List (String × Version)}
    (hp : parsedTags versions = .ok pl) (hparse : parseVersion ms = some mv) :
    get_latest_minor_versions_all versions ms =
      .ok (groupMax (pl.filter (fun p => versionGe p.2 mv))) := by
  unfold get_latest_minor_versions_all
  rw [show (do
      let pl ← parsedTags versions
      let pl2 ← geFilterAux ms pl
      pure (groupMax pl2) : Except PyExc (List (String × Version))) =
    (parsedTags versions).bind
      (fun pl => (geFilterAux ms pl).bind (fun pl2 => pure (groupMax pl2))) from rfl]
  rw [hp]
  rw [show ((Except.ok pl : Except PyExc (List (String × Version))).bind
      (fun pl => (geFilterAux ms pl).bind (fun pl2 => pure (groupMax pl2)))) =
    (geFilterAux ms pl).bind (fun pl2 => pure (groupMax pl2)) from rfl]
  rw [geFilterAux_ok hparse]
  rfl

/-! ### Claim C1 -/

/-- C1, counterexample.  The claim says the pipeline returns exactly one
entry for each (major, minor) pair that has at least one parseable tag
whose version lies within the bounds.  With tags `3.9.1` and `3.9.5` and
maximum bound `3.9.3`, the pair (3, 9) has the parseable in-bounds tag
`3.9.1`, yet the pipeline returns the empty list: the per-minor maximum
`3.9.5` is chosen before the bound filter runs and is then discarded. -/
theorem c1_counterexample :
    select_version_tags ["3.9.1", "3.9.5"] none (some "3.9.3") = .ok [] ∧
    normalize_version "3.9.1" = .ok ("3.9.1", some ⟨3, 9, 1, [], []⟩) ∧
    boundVal none = some none ∧
    boundVal (some "3.9.3") = some (some ⟨3, 9, 3, [], []⟩) ∧
    withinBounds ⟨3, 9, 1, [], []⟩ none (some ⟨3, 9, 3, [], []⟩) = true :=
  ⟨rfl, rfl, rfl, rfl, rfl⟩

/-- C1, amended.  For every tag list and optional bounds, the selection
pipeline of `install_cpython.py`'s main returns exactly one (tag, version)
entry for each distinct (major, minor) pair that has at least one
parseable tag and whose per-pair maximum parsed version lies within the
bounds. -/
theorem c1_latest_minor_selection
    (tags : List String) (minS maxS : Option String)
    (pl : List (String × Version)) (minV maxV : Option Version)
    (hp : parsedTags tags = .ok pl)
    (hmin : boundVal minS = some minV) (hmax : boundVal maxS = some maxV) :
    ∃ l, select_version_tags tags minS maxS = .ok l ∧
      ∀ M m : Nat,
        ((∃ p, p ∈ pl ∧ p.2.major = M ∧ p.2.minor = m ∧
            (∀ q ∈ pl, q.2.major = M → q.2.minor = m → versionLt p.2 q.2 = false) ∧
            withinBounds p.2 minV maxV = true) ↔
          (∃! e, (e ∈ l ∧ e.2.major = M ∧ e.2.minor = m))) := by
  refine ⟨maxFilterB maxV (minFilterB minV (groupMax pl)), select_eq hp hmin hmax, ?_⟩
  intro M m
  constructor
  · rintro ⟨p, hpmem, hpM, hpm, hpmax, hpb⟩
    obtain ⟨e, heg, heM, hem⟩ := groupMax_exists_pair hpmem
    have heM' : e.2.major = M := heM.trans hpM
    have hem' : e.2.minor = m := hem.trans hpm
    have h1 : versionLt e.2 p.2 = false :=
      groupMax_pair_max heg p hpmem heM.symm hem.symm
    have h2 : versionLt p.2 e.2 = false := hpmax e (groupMax_subset heg) heM' hem'
    have heq : Version.comparePrec e.2 p.2 = .eq :=
      comparePrec_eq_of_not_lt_not_gt (versionLt_eq_false_iff.1 h1)
        (comparePrec_ne_gt_of_ne_lt (versionLt_eq_false_iff.1 h2))
    have heb : withinBounds e.2 minV maxV = true :=
      (withinBounds_congr heq minV maxV).trans hpb
    refine ⟨e, ⟨mem_boundFilters.2 ⟨heg, heb⟩, heM', hem'⟩, ?_⟩
    rintro e' ⟨he'l, he'M, he'm⟩
    exact groupMax_unique_pair (mem_boundFilters.1 he'l).1 heg
      (he'M.trans heM'.symm) (he'm.trans hem'.symm)
  · rintro ⟨e, ⟨hel, heM, hem⟩, _⟩
    obtain ⟨heg, heb⟩ := mem_boundFilters.1 hel
    refine ⟨e, groupMax_subset heg, heM, hem, ?_, heb⟩
    intro q hq hqM hqm
    exact groupMax_pair_max heg q hq (hqM.trans heM.symm) (hqm.trans hem.symm)

/-- C1, witness: the amended theorem applied to a concrete run with tags
`3.9.1` and `3.9.5` and no bounds. -/
theorem c1_latest_minor_selection_witness :
    (parsedTags ["3.9.1", "3.9.5"] =
      .ok [("3.9.1", ⟨3, 9, 1, [], []⟩), ("3.9.5", ⟨3, 9, 5, [], []⟩)]) ∧
    (boundVal none = some none) ∧
    ∃ l, select_version_tags ["3.9.1", "3.9.5"] none none = .ok l ∧
      ∀ M m : Nat,
        ((∃ p, p ∈ [("3.9.1", (⟨3, 9, 1, [], []⟩ : Version)),
              ("3.9.5", ⟨3, 9, 5, [], []⟩)] ∧ p.2.major = M ∧ p.2.minor = m ∧
            (∀ q ∈ [("3.9.1", (⟨3, 9, 1, [], []⟩ : Version)),
                ("3.9.5", ⟨3, 9, 5, [], []⟩)],
              q.2.major = M → q.2.minor = m → versionLt p.2 q.2 = false) ∧
            withinBounds p.2 none none = true) ↔
          (∃! e, (e ∈ l ∧ e.2.major = M ∧ e.2.minor = m))) :=
  ⟨rfl, rfl, c1_latest_minor_selection ["3.9.1", "3.9.5"] none none
    [("3.9.1", ⟨3, 9, 1, [], []⟩), ("3.9.5", ⟨3, 9, 5, [], []⟩)] none none
    rfl rfl rfl⟩

/-! ### Claim C2 -/

/-- C2, counterexample.  The claim says the build driver processes tags in
descending order of their parsed semantic version.  With selected tags
`3.10.0` and `3.9.1`, the driver's `sorted(version_tags, reverse=True)`
sorts the tag *strings*, so `3.9.1` (string-greater) is processed before
`3.10.0` even though `3.10.0` has the greater parsed version. -/
theorem c2_counterexample :
    select_version_tags ["3.10.0", "3.9.1"] none none =
      .ok [("3.10.0", ⟨3, 10, 0, [], []⟩), ("3.9.1", ⟨3, 9, 1, [], []⟩)] ∧
    sortedDescTags ["3.10.0", "3.9.1"] = ["3.9.1", "3.10.0"] ∧
    safe_parse_version "3.10.0" = some ⟨3, 10, 0, [], []⟩ ∧
    safe_parse_version "3.9.1" = some ⟨3, 9, 1, [], []⟩ ∧
    versionLt ⟨3, 9, 1, [], []⟩ ⟨3, 10, 0, [], []⟩ = true :=
  ⟨rfl, rfl, rfl, rfl, rfl⟩

/-- C2, amended.  The build driver processes the selected tags in
descending *lexicographic string* order: the processing order is a
permutation of the selected tags in which no earlier tag is string-less
than a later one. -/
theorem c2_descending_string_order (tags : List String) :
    List.Sorted (fun a b : String => ¬ a < b) (sortedDescTags tags) ∧
    List.Perm (sortedDescTags tags) tags := by
  constructor
  · exact List.Pairwise.imp (fun h => strGe_iff_not_lt.1 h)
      (List.sorted_insertionSort strGe tags)
  · exact List.perm_insertionSort strGe tags

/-! ### Claim C3 -/

/-- C3, code bug.  The spec says malformed tags (the empty string
included) are dropped and never cause a crash, but `normalize_version`
evaluates `version_tag[0]`, which raises `IndexError` on the empty
string, and `get_latest_minor_versions` propagates it in both scripts. -/
theorem c3_empty_tag_raises :
    get_latest_minor_versions [""] = .error .indexError ∧
    normalize_version "" = .error .indexError ∧
    get_latest_minor_versions_all [""] "3.0.0" = .error .indexError :=
  ⟨rfl, rfl, rfl⟩

/-! ### Claim C6 -/

/-- C6.  No selected (tag, version) pair lies strictly below the minimum
bound or strictly above the maximum bound: every entry of
`install_cpython.py`'s selected list satisfies both inclusive bounds, and
every entry of `install_all_minor_versions.py`'s
`get_latest_minor_versions` satisfies its minimum bound. -/
theorem c6_bounds_respected :
    (∀ (tags : List String) (minS maxS : Option String) (minV maxV : Option Version)
        (l : List (String × Version)),
        boundVal minS = some minV → boundVal maxS = some maxV →
        select_version_tags tags minS maxS = .ok l →
        ∀ e ∈ l, withinBounds e.2 minV maxV = true) ∧
    (∀ (versions : List String) (ms : String) (mv : Version)
        (pl l : List (String × Version)),
        parsedTags versions = .ok pl → parseVersion ms = some mv →
        get_latest_minor_versions_all versions ms = .ok l →
        ∀ e ∈ l, versionGe e.2 mv = true) := by
  constructor
  · intro tags minS maxS minV maxV l hmin hmax hsel e he
    unfold select_version_tags at hsel
    rw [show (do
        let latest ← get_latest_minor_versions tags
        let l1 ← minBoundFilter minS latest
        maxBoundFilter maxS l1 : Except PyExc (List (String × Version))) =
      (get_latest_minor_versions tags).bind
        (fun latest => (minBoundFilter minS latest).bind
          (fun l1 => maxBoundFilter maxS l1)) from rfl] at hsel
    obtain ⟨latest, _, hsel2⟩ := except_bind_ok_destruct hsel
    obtain ⟨l1, hl1, hsel3⟩ := except_bind_ok_destruct hsel2
    rw [minBoundFilter_eq hmin] at hl1
    cases Except.ok.inj hl1
    rw [maxBoundFilter_eq hmax] at hsel3
    cases Except.ok.inj hsel3
    exact (mem_boundFilters.1 he).2
  · intro versions ms mv pl l hp hparse hall e he
    rw [get_latest_all_eq hp hparse] at hall
    cases Except.ok.inj hall
    have := groupMax_subset he
    exact (List.mem_filter.1 this).2

/-- C6, witness: both parts applied to a concrete run with one tag and
bounds `3.0.0` and `3.9.3`. -/
theorem c6_bounds_respected_witness :
    (boundVal (some "3.0.0") = some (some ⟨3, 0, 0, [], []⟩)) ∧
    (boundVal (some "3.9.3") = some (some ⟨3, 9, 3, [], []⟩)) ∧
    (select_version_tags ["3.9.1"] (some "3.0.0") (some "3.9.3") =
      .ok [("3.9.1", ⟨3, 9, 1, [], []⟩)]) ∧
    (∀ e ∈ [(("3.9.1", ⟨3, 9, 1, [], []⟩) : String × Version)],
      withinBounds e.2 (some ⟨3, 0, 0, [], []⟩) (some ⟨3, 9, 3, [], []⟩) = true) ∧
    (parsedTags ["3.9.1"] = .ok [("3.9.1", ⟨3, 9, 1, [], []⟩)]) ∧
    (parseVersion "3.0.0" = some ⟨3, 0, 0, [], []⟩) ∧
    (get_latest_minor_versions_all ["3.9.1"] "3.0.0" =
      .ok [("3.9.1", ⟨3, 9, 1, [], []⟩)]) ∧
    (∀ e ∈ [(("3.9.1", ⟨3, 9, 1, [], []⟩) : String × Version)],
      versionGe e.2 ⟨3, 0, 0, [], []⟩ = true) :=
  ⟨rfl, rfl, rfl,
    c6_bounds_respected.1 ["3.9.1"] (some "3.0.0") (some "3.9.3")
      (some ⟨3, 0, 0, [], []⟩) (some ⟨3, 9, 3, [], []⟩)
      [("3.9.1", ⟨3, 9, 1, [], []⟩)] rfl rfl rfl,
    rfl, rfl, rfl,
    c6_bounds_respected.2 ["3.9.1"] "3.0.0" ⟨3, 0, 0, [], []⟩
      [("3.9.1", ⟨3, 9, 1, [], []⟩)] [("3.9.1", ⟨3, 9, 1, [], []⟩)] rfl rfl rfl⟩

/-! ### Claim C7 -/

/-- C7.  Every entry returned by `get_latest_minor_versions` is itself a
parsed tag and carries the maximum parsed version among all parseable
tags sharing its (major, minor) pair, and no two returned entries share a
(major, minor) pair (duplicate and equal-version tags collapse into one
entry, Python `max` keeping the first). -/
theorem c7_group_max (tags : List String) (pl : List (String × Version))
    (hp : parsedTags tags = .ok pl) :
    get_latest_minor_versions tags = .ok (groupMax pl) ∧
    (∀ e ∈ groupMax pl, e ∈ pl ∧
      ∀ q ∈ pl, q.2.major = e.2.major → q.2.minor = e.2.minor →
        versionLt e.2 q.2 = false) ∧
    (∀ e1 ∈ groupMax pl, ∀ e2 ∈ groupMax pl,
      e1.2.major = e2.2.major → e1.2.minor = e2.2.minor → e1 = e2) :=
  ⟨get_latest_eq hp,
    fun e he => ⟨groupMax_subset he, fun q hq h1 h2 => groupMax_pair_max he q hq h1 h2⟩,
    fun e1 h1 e2 h2 hM hm => groupMax_unique_pair h1 h2 hM hm⟩

/-- C7, witness: the theorem applied to a duplicate-containing concrete
tag list (`v3.9.1` and `3.9.1` parse to equal versions). -/
theorem c7_group_max_witness :
    (parsedTags ["v3.9.1", "3.9.1", "3.9.5"] =
      .ok [("v3.9.1", ⟨3, 9, 1, [], []⟩), ("3.9.1", ⟨3, 9, 1, [], []⟩),
        ("3.9.5", ⟨3, 9, 5, [], []⟩)]) ∧
    (get_latest_minor_versions ["v3.9.1", "3.9.1", "3.9.5"] =
      .ok (groupMax [("v3.9.1", ⟨3, 9, 1, [], []⟩), ("3.9.1", ⟨3, 9, 1, [], []⟩),
        ("3.9.5", ⟨3, 9, 5, [], []⟩)]) ∧
    (∀ e ∈ groupMax [("v3.9.1", ⟨3, 9, 1, [], []⟩), ("3.9.1", ⟨3, 9, 1, [], []⟩),
        ("3.9.5", ⟨3, 9, 5, [], []⟩)],
      e ∈ [("v3.9.1", (⟨3, 9, 1, [], []⟩ : Version)), ("3.9.1", ⟨3, 9, 1, [], []⟩),
        ("3.9.5", ⟨3, 9, 5, [], []⟩)] ∧
      ∀ q ∈ [("v3.9.1", (⟨3, 9, 1, [], []⟩ : Version)), ("3.9.1", ⟨3, 9, 1, [], []⟩),
        ("3.9.5", ⟨3, 9, 5, [], []⟩)],
        q.2.major = e.2.major → q.2.minor = e.2.minor →
          versionLt e.2 q.2 = false) ∧
    (∀ e1 ∈ groupMax [("v3.9.1", ⟨3, 9, 1, [], []⟩), ("3.9.1", ⟨3, 9, 1, [], []⟩),
        ("3.9.5", ⟨3, 9, 5, [], []⟩)],
      ∀ e2 ∈ groupMax [("v3.9.1", ⟨3, 9, 1, [], []⟩), ("3.9.1", ⟨3, 9, 1, [], []⟩),
        ("3.9.5", ⟨3, 9, 5, [], []⟩)],
        e1.2.major = e2.2.major → e1.2.minor = e2.2.minor → e1 = e2)) :=
  ⟨rfl, c7_group_max ["v3.9.1", "3.9.1", "3.9.5"]
    [("v3.9.1", ⟨3, 9, 1, [], []⟩), ("3.9.1", ⟨3, 9, 1, [], []⟩),
      ("3.9.5", ⟨3, 9, 5, [], []⟩)] rfl⟩

/-! ### Claim C9 -/

/-- C9.  For every tag list and parseable minimum bound,
`install_all_minor_versions.py`'s `get_latest_minor_versions(versions,
minimum)` (minimum filter before grouping) and `install_cpython.py`'s
`get_latest_minor_versions(versions)` followed by the minimum-bound
filter (grouping before minimum filter) select the same set of
(tag, version) pairs. -/
theorem c9_min_filter_commutes (tags : List String) (ms : String) (mv : Version)
    (pl : List (String × Version))
    (hp : parsedTags tags = .ok pl) (hparse : parseVersion ms = some mv) :
    ∃ lA lB, get_latest_minor_versions_all tags ms = .ok lA ∧
      select_version_tags tags (some ms) none = .ok lB ∧
      ∀ p, p ∈ lA ↔ p ∈ lB := by
  refine ⟨groupMax (pl.filter (fun p => versionGe p.2 mv)),
    (groupMax pl).filter (fun p => versionGe p.2 mv),
    get_latest_all_eq hp hparse, ?_, ?_⟩
  · have hb : boundVal (some ms) = some (some mv) := by
      rw [show boundVal (some ms) = (parseVersion ms).map some from rfl, hparse]
      rfl
    exact select_eq hp hb (show boundVal none = some none from rfl)
  · intro p
    constructor
    · intro hA
      obtain ⟨k, hk, hmax⟩ := mem_groupMax.1 hA
      rw [filter_swap_bool (fun p => versionGe p.2 mv)
        (fun q => decide (minorKey q.2 = k)) pl] at hmax
      obtain ⟨q0, hq0, hq0k⟩ := List.mem_map.1 hk
      obtain ⟨hq0pl, hq0ge⟩ := List.mem_filter.1 hq0
      have hq0g : q0 ∈ pl.filter (fun q => decide (minorKey q.2 = k)) :=
        List.mem_filter.2 ⟨hq0pl, decide_eq_true hq0k⟩
      obtain ⟨mg, hmg⟩ := pyMax?_of_ne_nil (List.ne_nil_of_mem hq0g)
      by_cases hge : versionGe mg.2 mv = true
      · have hBmax := pyMax?_filter_of_ge hmg hge
        rw [hmax] at hBmax
        cases Option.some.inj hBmax
        exact List.mem_filter.2
          ⟨mem_groupMax.2 ⟨k, List.mem_map.2 ⟨q0, hq0pl, hq0k⟩, hmg⟩, hge⟩
      · rw [filter_ge_eq_nil_of_max_lt hmg (Bool.not_eq_true _ ▸ hge)] at hmax
        cases hmax
    · intro hB
      obtain ⟨hpg, hpge⟩ := List.mem_filter.1 hB
      obtain ⟨k, hk, hmax⟩ := mem_groupMax.1 hpg
      have h2 := pyMax?_filter_of_ge hmax hpge
      rw [← filter_swap_bool (fun p => versionGe p.2 mv)
        (fun q => decide (minorKey q.2 = k)) pl] at h2
      have hppl : p ∈ pl.filter (fun q => decide (minorKey q.2 = k)) :=
        (pyMax?_spec hmax).1
      obtain ⟨hpl, hpk⟩ := List.mem_filter.1 hppl
      refine mem_groupMax.2 ⟨k, ?_, h2⟩
      exact List.mem_map.2
        ⟨p, List.mem_filter.2 ⟨hpl, hpge⟩, of_decide_eq_true hpk⟩

/-- C9, witness: the equivalence applied to a concrete run with two minor
lines and bound `3.2.0` (which discards the 3.1 line on both sides). -/
theorem c9_min_filter_commutes_witness :
    (parsedTags ["3.1.0", "3.5.9", "3.1.7"] =
      .ok [("3.1.0", ⟨3, 1, 0, [], []⟩), ("3.5.9", ⟨3, 5, 9, [], []⟩),
        ("3.1.7", ⟨3, 1, 7, [], []⟩)]) ∧
    (parseVersion "3.2.0" = some ⟨3, 2, 0, [], []⟩) ∧
    ∃ lA lB, get_latest_minor_versions_all ["3.1.0", "3.5.9", "3.1.7"] "3.2.0" = .ok lA ∧
      select_version_tags ["3.1.0", "3.5.9", "3.1.7"] (some "3.2.0") none = .ok lB ∧
      ∀ p, p ∈ lA ↔ p ∈ lB :=
  ⟨rfl, rfl, c9_min_filter_commutes ["3.1.0", "3.5.9", "3.1.7"] "3.2.0"
    ⟨3, 2, 0, [], []⟩
    [("3.1.0", ⟨3, 1, 0, [], []⟩), ("3.5.9", ⟨3, 5, 9, [], []⟩),
      ("3.1.7", ⟨3, 1, 7, [], []⟩)] rfl rfl⟩

/-! ### Basic facts about the run monad -/

theorem runM_bind_ok {α β : Type} {m : RunM α} {f : α → RunM β} {env : Env}
    {s : RState} {a : α} {s' : RState} (h : m env s = (.ok a, s')) :
    (m >>= f) env s = f a env s' := by
  show (match m env s with
    | (.ok a, s') => f a env s'
    | (.error e, s') => (.error e, s')) = f a env s'
  rw [h]

theorem runM_bind_error {α β : Type} {m : RunM α} {f : α → RunM β} {env : Env}
    {s : RState} {e : PyExc} {s' : RState} (h : m env s = (.error e, s')) :
    (m >>= f) env s = (.error e, s') := by
  show (match m env s with
    | (.ok a, s') => f a env s'
    | (.error e, s') => (.error e, s')) = (.error e, s')
  rw [h]

theorem check_output_ok (cmd : String) (env : Env) (s : RState)
    (h : env.exitCode s.next = 0) :
    check_output cmd env s = (.ok (env.output s.next),
      ⟨s.next + 1, s.trace ++ [.run cmd (env.exitCode s.next)]⟩) := by
  unfold check_output
  rw [if_pos h]

theorem check_output_fail (cmd : String) (env : Env) (s : RState)
    (h : ¬ env.exitCode s.next = 0) :
    check_output cmd env s = (.error .calledProcessError,
      ⟨s.next + 1, s.trace ++ [.run cmd (env.exitCode s.next)]⟩) := by
  unfold check_output
  rw [if_neg h]

theorem safe_run_fail {cmd : String} {env : Env} {s : RState}
    (h : ¬ env.exitCode s.next = 0) :
    safe_run_process cmd env s = (.error .osError,
      ⟨s.next + 1, s.trace ++ [.run cmd (env.exitCode s.next), .logFail cmd]⟩) := by
  unfold safe_run_process
  rw [if_neg h]

theorem safe_run_ok {cmd : String} {env : Env} {s : RState}
    (h : env.exitCode s.next = 0) :
    safe_run_process cmd env s = (.ok (),
      ⟨s.next + 1, s.trace ++ [.run cmd (env.exitCode s.next)]⟩) := by
  unfold safe_run_process
  rw [if_pos h]

theorem check_output_state (cmd : String) (env : Env) (s : RState) :
    (check_output cmd env s).2 =
      ⟨s.next + 1, s.trace ++ [.run cmd (env.exitCode s.next)]⟩ := by
  by_cases h : env.exitCode s.next = 0
  · rw [check_output_ok cmd env s h]
  · rw [check_output_fail cmd env s h]

/-- The computation only appends to the trace. -/
def Extends {α : Type} (m : RunM α) : Prop :=
  ∀ env s, ∃ t, (m env s).2.trace = s.trace ++ t

theorem ext_pure {α : Type} (a : α) : Extends (pure a : RunM α) :=
  fun _ s => ⟨[], (List.append_nil s.trace).symm⟩

theorem ext_emit (e : Event) : Extends (emit e) :=
  fun _ _ => ⟨[e], rfl⟩

theorem ext_liftE {α : Type} (e : Except PyExc α) : Extends (liftE e) :=
  fun _ s => ⟨[], (List.append_nil s.trace).symm⟩

theorem ext_check_output (cmd : String) : Extends (check_output cmd) := by
  intro env s
  rw [check_output_state]
  exact ⟨[.run cmd (env.exitCode s.next)], rfl⟩

theorem ext_safe_run (cmd : String) : Extends (safe_run_process cmd) := by
  intro env s
  by_cases h : env.exitCode s.next = 0
  · rw [safe_run_ok h]
    exact ⟨[.run cmd (env.exitCode s.next)], rfl⟩
  · rw [safe_run_fail h]
    exact ⟨[.run cmd (env.exitCode s.next), .logFail cmd], rfl⟩

theorem ext_bind {α β : Type} {m : RunM α} {f : α → RunM β}
    (hm : Extends m) (hf : ∀ a, Extends (f a)) : Extends (m >>= f) := by
  intro env s
  rcases h : m env s with ⟨r, s'⟩
  have ht1 := hm env s
  rw [h] at ht1
  obtain ⟨t1, ht1⟩ := ht1
  cases r with
  | ok a =>
    rw [runM_bind_ok h]
    obtain ⟨t2, ht2⟩ := hf a env s'
    exact ⟨t1 ++ t2, by rw [ht2, ht1, List.append_assoc]⟩
  | error e =>
    rw [runM_bind_error h]
    exact ⟨t1, ht1⟩

theorem ext_catchOS {m : RunM Unit} (hm : Extends m) : Extends (catchOS m) := by
  intro env s
  obtain ⟨t, ht⟩ := hm env s
  refine ⟨t, ?_⟩
  unfold catchOS
  rcases h : m env s with ⟨r, s'⟩
  rw [h] at ht
  match r with
  | .ok _ => exact ht
  | .error .osError => exact ht
  | .error .calledProcessError => exact ht
  | .error .valueError => exact ht
  | .error .indexError => exact ht

theorem ext_ite {α : Type} (b : Prop) [Decidable b] {m1 m2 : RunM α}
    (h1 : Extends m1) (h2 : Extends m2) : Extends (if b then m1 else m2) := by
  split
  · exact h1
  · exact h2

theorem ext_buildTagC (t : String) : Extends (buildTagC t) := by
  unfold buildTagC
  refine ext_bind (ext_emit _) fun _ => ?_
  refine ext_bind (ext_safe_run _) fun _ => ?_
  refine ext_bind (ext_safe_run _) fun _ => ?_
  refine ext_bind (ext_safe_run _) fun _ => ?_
  refine ext_bind (ext_emit _) fun _ => ?_
  refine ext_bind (ext_safe_run _) fun _ => ?_
  refine ext_bind (ext_emit _) fun _ => ?_
  refine ext_bind (ext_safe_run _) fun _ => ?_
  refine ext_bind (ext_emit _) fun _ => ?_
  refine ext_bind (ext_safe_run _) fun _ => ?_
  refine ext_bind (ext_emit _) fun _ => ?_
  exact ext_safe_run _

theorem ext_buildTagA (t : String) : Extends (buildTagA t) := by
  unfold buildTagA
  refine ext_bind (ext_emit _) fun _ => ?_
  refine ext_bind (ext_safe_run _) fun _ => ?_
  refine ext_bind (ext_safe_run _) fun _ => ?_
  refine ext_bind (ext_safe_run _) fun _ => ?_
  refine ext_bind (ext_emit _) fun _ => ?_
  refine ext_bind (ext_safe_run _) fun _ => ?_
  refine ext_bind (ext_emit _) fun _ => ?_
  refine ext_bind (ext_safe_run _) fun _ => ?_
  refine ext_bind (ext_emit _) fun _ => ?_
  refine ext_bind (ext_safe_run _) fun _ => ?_
  refine ext_bind (ext_emit _) fun _ => ?_
  exact ext_safe_run _

theorem ext_installDeps (d : DistroLike) : Extends (install_system_dependencies d) := by
  cases d
  · unfold install_system_dependencies
    refine ext_bind (ext_safe_run _) fun _ => ?_
    refine ext_bind (ext_safe_run _) fun _ => ?_
    exact ext_safe_run _
  · unfold install_system_dependencies
    refine ext_bind (ext_safe_run _) fun _ => ?_
    exact ext_safe_run _

theorem ext_buildLoopC : ∀ ts : List String, Extends (buildLoopC ts)
  | [] => ext_pure ()
  | t :: ts => by
    unfold buildLoopC
    exact ext_bind (ext_catchOS (ext_buildTagC t)) fun _ => ext_buildLoopC ts

theorem ext_buildLoopA : ∀ ts : List String, Extends (buildLoopA ts)
  | [] => ext_pure ()
  | t :: ts => by
    unfold buildLoopA
    exact ext_bind (ext_catchOS (ext_buildTagA t)) fun _ => ext_buildLoopA ts

theorem mem_trace_of_extends {α : Type} {m : RunM α} (hm : Extends m)
    {e : Event} {env : Env} {s : RState} (he : e ∈ s.trace) :
    e ∈ (m env s).2.trace := by
  obtain ⟨t, ht⟩ := hm env s
  rw [ht]
  exact List.mem_append_left t he

/-- The computation either succeeds or raises `OSError` (the only
exception `safe_run_process` can raise). -/
def OkOrOS (m : RunM Unit) : Prop :=
  ∀ env s, (m env s).1 = .ok () ∨ (m env s).1 = .error .osError

theorem oos_emit (e : Event) : OkOrOS (emit e) := fun _ _ => Or.inl rfl

theorem oos_safe_run (cmd : String) : OkOrOS (safe_run_process cmd) := by
  intro env s
  by_cases h : env.exitCode s.next = 0
  · rw [safe_run_ok h]
    exact Or.inl rfl
  · rw [safe_run_fail h]
    exact Or.inr rfl

theorem oos_bind {m : RunM Unit} {f : Unit → RunM Unit}
    (hm : OkOrOS m) (hf : OkOrOS (f ())) : OkOrOS (m >>= f) := by
  intro env s
  rcases h : m env s with ⟨r, s'⟩
  have hr := hm env s
  rw [h] at hr
  cases r with
  | ok a =>
    cases a
    rw [runM_bind_ok h]
    exact hf env s'
  | error e =>
    rw [runM_bind_error h]
    rcases hr with hr | hr
    · cases hr
    · cases hr
      exact Or.inr rfl

theorem oos_buildTagC (t : String) : OkOrOS (buildTagC t) := by
  unfold buildTagC
  refine oos_bind (oos_emit _) ?_
  refine oos_bind (oos_safe_run _) ?_
  refine oos_bind (oos_safe_run _) ?_
  refine oos_bind (oos_safe_run _) ?_
  refine oos_bind (oos_emit _) ?_
  refine oos_bind (oos_safe_run _) ?_
  refine oos_bind (oos_emit _) ?_
  refine oos_bind (oos_safe_run _) ?_
  refine oos_bind (oos_emit _) ?_
  refine oos_bind (oos_safe_run _) ?_
  refine oos_bind (oos_emit _) ?_
  exact oos_safe_run _

theorem oos_buildTagA (t : String) : OkOrOS (buildTagA t) := by
  unfold buildTagA
  refine oos_bind (oos_emit _) ?_
  refine oos_bind (oos_safe_run _) ?_
  refine oos_bind (oos_safe_run _) ?_
  refine oos_bind (oos_safe_run _) ?_
  refine oos_bind (oos_emit _) ?_
  refine oos_bind (oos_safe_run _) ?_
  refine oos_bind (oos_emit _) ?_
  refine oos_bind (oos_safe_run _) ?_
  refine oos_bind (oos_emit _) ?_
  refine oos_bind (oos_safe_run _) ?_
  refine oos_bind (oos_emit _) ?_
  exact oos_safe_run _

theorem catchOS_ok {m : RunM Unit} (hm : OkOrOS m) (env : Env) (s : RState) :
    catchOS m env s = (.ok (), (m env s).2) := by
  unfold catchOS
  have hr := hm env s
  rcases h : m env s with ⟨r, s'⟩
  rw [h] at hr
  cases r with
  | ok a =>
    cases a
    rfl
  | error e =>
    rcases hr with hr | hr
    · cases hr
    · injection hr with h2
      subst h2
      rfl

theorem buildLoopC_ok : ∀ (ts : List String) (env : Env) (s : RState),
    ∃ s', buildLoopC ts env s = (.ok (), s')
  | [], env, s => ⟨s, rfl⟩
  | t :: ts, env, s => by
    unfold buildLoopC
    rw [runM_bind_ok (catchOS_ok (oos_buildTagC t) env s)]
    exact buildLoopC_ok ts env _

theorem buildLoopA_ok : ∀ (ts : List String) (env : Env) (s : RState),
    ∃ s', buildLoopA ts env s = (.ok (), s')
  | [], env, s => ⟨s, rfl⟩
  | t :: ts, env, s => by
    unfold buildLoopA
    rw [runM_bind_ok (catchOS_ok (oos_buildTagA t) env s)]
    exact buildLoopA_ok ts env _

theorem buildTagC_msg (t : String) (env : Env) (s : RState) :
    Event.msg (">>> Getting " ++ t) ∈ (buildTagC t env s).2.trace := by
  unfold buildTagC
  rw [runM_bind_ok (show emit (.msg (">>> Getting " ++ t)) env s =
    (.ok (), ⟨s.next, s.trace ++ [.msg (">>> Getting " ++ t)]⟩) from rfl)]
  refine mem_trace_of_extends ?_ ?_
  · refine ext_bind (ext_safe_run _) fun _ => ?_
    refine ext_bind (ext_safe_run _) fun _ => ?_
    refine ext_bind (ext_safe_run _) fun _ => ?_
    refine ext_bind (ext_emit _) fun _ => ?_
    refine ext_bind (ext_safe_run _) fun _ => ?_
    refine ext_bind (ext_emit _) fun _ => ?_
    refine ext_bind (ext_safe_run _) fun _ => ?_
    refine ext_bind (ext_emit _) fun _ => ?_
    refine ext_bind (ext_safe_run _) fun _ => ?_
    refine ext_bind (ext_emit _) fun _ => ?_
    exact ext_safe_run _
  · exact List.mem_append_right _ (List.mem_singleton.2 rfl)

theorem buildLoopC_attempts : ∀ (ts : List String) (env : Env) (s : RState),
    ∀ t ∈ ts, Event.msg (">>> Getting " ++ t) ∈ (buildLoopC ts env s).2.trace
  | [], _, _, t, ht => absurd ht (List.not_mem_nil t)
  | t0 :: ts, env, s, t, ht => by
    unfold buildLoopC
    rw [runM_bind_ok (catchOS_ok (oos_buildTagC t0) env s)]
    rcases List.mem_cons.1 ht with h | h
    · subst h
      exact mem_trace_of_extends (ext_buildLoopC ts) (buildTagC_msg t env s)
    · exact buildLoopC_attempts ts env _ t h

/-! ### Walking the pre-loop part of the two mains -/

theorem runM_bind_liftE_ok {α β : Type} {a : α} {f : α → RunM β} {env : Env}
    {s : RState} : (liftE (Except.ok a : Except PyExc α) >>= f) env s = f a env s :=
  runM_bind_ok rfl

theorem runM_bind_liftE_error {α β : Type} {e : PyExc} {f : α → RunM β} {env : Env}
    {s : RState} :
    (liftE (Except.error e : Except PyExc α) >>= f) env s = (.error e, s) :=
  runM_bind_error rfl

theorem recordRefC_cases (args : ArgsC) (env : Env) :
    (∃ e, recordRefC args env initState = (.error e,
        ⟨1, [.run "git tag" (env.exitCode 0)]⟩)) ∨
    (∃ e, recordRefC args env initState = (.error e,
        ⟨2, [.run "git tag" (env.exitCode 0),
          .run "git rev-parse HEAD" (env.exitCode 1)]⟩)) ∨
    (∃ a, recordRefC args env initState = (.ok a,
        ⟨2, [.run "git tag" (env.exitCode 0),
          .run "git rev-parse HEAD" (env.exitCode 1)]⟩)) := by
  unfold recordRefC
  by_cases h0 : env.exitCode 0 = 0
  · rw [runM_bind_ok (check_output_ok "git tag" env initState h0)]
    rcases hG : get_latest_minor_versions
        ((pySplitWs (env.output initState.next).data).map String.mk) with e0 | latest0
    · rw [runM_bind_liftE_error]
      exact Or.inl ⟨e0, rfl⟩
    · rw [runM_bind_liftE_ok]
      rcases hM : minBoundFilter args.minimum latest0 with e1 | latest1
      · rw [runM_bind_liftE_error]
        exact Or.inl ⟨e1, rfl⟩
      · rw [runM_bind_liftE_ok]
        rcases hX : maxBoundFilter args.maximum latest1 with e2 | latest2
        · rw [runM_bind_liftE_error]
          exact Or.inl ⟨e2, rfl⟩
        · rw [runM_bind_liftE_ok]
          by_cases h1 : env.exitCode 1 = 0
          · rw [runM_bind_ok (check_output_ok "git rev-parse HEAD" env
              ⟨initState.next + 1,
                initState.trace ++ [Event.run "git tag" (env.exitCode initState.next)]⟩ h1)]
            exact Or.inr (Or.inr ⟨_, rfl⟩)
          · rw [runM_bind_error (check_output_fail "git rev-parse HEAD" env
              ⟨initState.next + 1,
                initState.trace ++ [Event.run "git tag" (env.exitCode initState.next)]⟩ h1)]
            exact Or.inr (Or.inl ⟨_, rfl⟩)
  · rw [runM_bind_error (check_output_fail "git tag" env initState h0)]
    exact Or.inl ⟨_, rfl⟩

theorem recordRefA_cases (args : ArgsA) (env : Env) :
    (∃ e, recordRefA args env initState = (.error e,
        ⟨1, [.run "git tag" (env.exitCode 0)]⟩)) ∨
    (∃ e, recordRefA args env initState = (.error e,
        ⟨2, [.run "git tag" (env.exitCode 0),
          .run "git rev-parse HEAD" (env.exitCode 1)]⟩)) ∨
    (∃ a, recordRefA args env initState = (.ok a,
        ⟨2, [.run "git tag" (env.exitCode 0),
          .run "git rev-parse HEAD" (env.exitCode 1)]⟩)) := by
  unfold recordRefA
  by_cases h0 : env.exitCode 0 = 0
  · rw [runM_bind_ok (check_output_ok "git tag" env initState h0)]
    rcases hG : get_latest_minor_versions_all
        ((pySplitWs (env.output initState.next).data).map String.mk) args.minimum
        with e0 | latest
    · rw [runM_bind_liftE_error]
      exact Or.inl ⟨e0, rfl⟩
    · rw [runM_bind_liftE_ok]
      by_cases h1 : env.exitCode 1 = 0
      · rw [runM_bind_ok (check_output_ok "git rev-parse HEAD" env
          ⟨initState.next + 1,
            initState.trace ++ [Event.run "git tag" (env.exitCode initState.next)]⟩ h1)]
        exact Or.inr (Or.inr ⟨_, rfl⟩)
      · rw [runM_bind_error (check_output_fail "git rev-parse HEAD" env
          ⟨initState.next + 1,
            initState.trace ++ [Event.run "git tag" (env.exitCode initState.next)]⟩ h1)]
        exact Or.inr (Or.inl ⟨_, rfl⟩)
  · rw [runM_bind_error (check_output_fail "git tag" env initState h0)]
    exact Or.inl ⟨_, rfl⟩

theorem ext_afterRefC (args : ArgsC) (osr : String) (p : List String × String) :
    Extends (afterRefC args osr p) := by
  unfold afterRefC
  refine ext_bind (ext_emit _) fun _ => ?_
  refine ext_bind (ext_emit _) fun _ => ?_
  refine ext_bind (ext_liftE _) fun d => ?_
  refine ext_bind (ext_installDeps d) fun _ => ?_
  by_cases hp : args.pull = true
  · rw [if_pos hp]
    exact ext_bind (ext_emit _) fun _ => ext_bind (ext_safe_run _) fun _ => ext_pure _
  · rw [if_neg hp]
    exact ext_bind (ext_emit _) fun _ => ext_pure _

theorem ext_afterRefA (args : ArgsA) (p : List String × String) :
    Extends (afterRefA args p) := by
  unfold afterRefA
  refine ext_bind (ext_emit _) fun _ => ?_
  by_cases hp : args.pull = true
  · rw [if_pos hp]
    exact ext_bind (ext_emit _) fun _ => ext_bind (ext_safe_run _) fun _ => ext_pure _
  · rw [if_neg hp]
    exact ext_bind (ext_emit _) fun _ => ext_pure _

theorem ext_restC (p : List String × String) : Extends (restC p) := by
  unfold restC
  refine ext_bind (ext_buildLoopC _) fun _ => ?_
  refine ext_bind (ext_emit _) fun _ => ?_
  exact ext_bind (ext_check_output _) fun _ => ext_pure _

theorem ext_restA (p : List String × String) : Extends (restA p) := by
  unfold restA
  refine ext_bind (ext_buildLoopA _) fun _ => ?_
  refine ext_bind (ext_emit _) fun _ => ?_
  exact ext_bind (ext_check_output _) fun _ => ext_pure _

theorem afterRefC_detect_fail {osr : String} {de : PyExc}
    (hd : detect_distro_like osr = .error de) (args : ArgsC)
    (p : List String × String) (env : Env) (s : RState) :
    afterRefC args osr p env s = (.error de,
      ⟨s.next, s.trace ++ [.msg (">>> Initial ref: " ++ p.2),
        .msg ">>> Installing system dependencies"]⟩) := by
  unfold afterRefC
  rw [runM_bind_ok (show emit (Event.msg (">>> Initial ref: " ++ p.2)) env s =
    (.ok (), ⟨s.next, s.trace ++ [Event.msg (">>> Initial ref: " ++ p.2)]⟩) from rfl)]
  rw [runM_bind_ok (show emit (Event.msg ">>> Installing system dependencies") env
      ⟨s.next, s.trace ++ [Event.msg (">>> Initial ref: " ++ p.2)]⟩ =
    (.ok (), ⟨s.next, (s.trace ++ [Event.msg (">>> Initial ref: " ++ p.2)]) ++
      [Event.msg ">>> Installing system dependencies"]⟩) from rfl)]
  rw [hd]
  rw [runM_bind_liftE_error]
  rw [List.append_assoc]
  rfl

theorem restC_trace (p : List String × String) (env : Env) (s : RState) :
    ∃ c t, (restC p env s).2.trace = s.trace ++ t ++ [.run ("git checkout " ++ p.2) c] := by
  obtain ⟨s', hbl⟩ := buildLoopC_ok (sortedDescTags p.1) env s
  obtain ⟨t0, ht0⟩ := ext_buildLoopC (sortedDescTags p.1) env s
  rw [hbl] at ht0
  unfold restC
  rw [runM_bind_ok hbl]
  rw [runM_bind_ok (show emit (Event.msg (">>> Restoring head to " ++ p.2)) env s' =
    (.ok (), ⟨s'.next, s'.trace ++ [Event.msg (">>> Restoring head to " ++ p.2)]⟩) from rfl)]
  by_cases hc : env.exitCode s'.next = 0
  · rw [runM_bind_ok (check_output_ok ("git checkout " ++ p.2) env
      ⟨s'.next, s'.trace ++ [Event.msg (">>> Restoring head to " ++ p.2)]⟩ hc)]
    refine ⟨env.exitCode s'.next, t0 ++ [Event.msg (">>> Restoring head to " ++ p.2)], ?_⟩
    show (s'.trace ++ [Event.msg (">>> Restoring head to " ++ p.2)]) ++
      [Event.run ("git checkout " ++ p.2) (env.exitCode s'.next)] = _
    rw [ht0]
    simp [List.append_assoc]
  · rw [runM_bind_error (check_output_fail ("git checkout " ++ p.2) env
      ⟨s'.next, s'.trace ++ [Event.msg (">>> Restoring head to " ++ p.2)]⟩ hc)]
    refine ⟨env.exitCode s'.next, t0 ++ [Event.msg (">>> Restoring head to " ++ p.2)], ?_⟩
    show (s'.trace ++ [Event.msg (">>> Restoring head to " ++ p.2)]) ++
      [Event.run ("git checkout " ++ p.2) (env.exitCode s'.next)] = _
    rw [ht0]
    simp [List.append_assoc]

theorem restA_trace (p : List String × String) (env : Env) (s : RState) :
    ∃ c t, (restA p env s).2.trace = s.trace ++ t ++ [.run ("git checkout " ++ p.2) c] := by
  obtain ⟨s', hbl⟩ := buildLoopA_ok (sortedDescTags p.1) env s
  obtain ⟨t0, ht0⟩ := ext_buildLoopA (sortedDescTags p.1) env s
  rw [hbl] at ht0
  unfold restA
  rw [runM_bind_ok hbl]
  rw [runM_bind_ok (show emit (Event.msg (">>> Restoring head to " ++ p.2)) env s' =
    (.ok (), ⟨s'.next, s'.trace ++ [Event.msg (">>> Restoring head to " ++ p.2)]⟩) from rfl)]
  by_cases hc : env.exitCode s'.next = 0
  · rw [runM_bind_ok (check_output_ok ("git checkout " ++ p.2) env
      ⟨s'.next, s'.trace ++ [Event.msg (">>> Restoring head to " ++ p.2)]⟩ hc)]
    refine ⟨env.exitCode s'.next, t0 ++ [Event.msg (">>> Restoring head to " ++ p.2)], ?_⟩
    show (s'.trace ++ [Event.msg (">>> Restoring head to " ++ p.2)]) ++
      [Event.run ("git checkout " ++ p.2) (env.exitCode s'.next)] = _
    rw [ht0]
    simp [List.append_assoc]
  · rw [runM_bind_error (check_output_fail ("git checkout " ++ p.2) env
      ⟨s'.next, s'.trace ++ [Event.msg (">>> Restoring head to " ++ p.2)]⟩ hc)]
    refine ⟨env.exitCode s'.next, t0 ++ [Event.msg (">>> Restoring head to " ++ p.2)], ?_⟩
    show (s'.trace ++ [Event.msg (">>> Restoring head to " ++ p.2)]) ++
      [Event.run ("git checkout " ++ p.2) (env.exitCode s'.next)] = _
    rw [ht0]
    simp [List.append_assoc]

theorem revParseFirst_tag (c0 : Int) : RevParseFirst [Event.run "git tag" c0] := by
  intro e he
  have h : List.takeWhile (fun ev => !(isRevParseEv ev)) [Event.run "git tag" c0] =
      [Event.run "git tag" c0] := rfl
  rw [h] at he
  rw [List.mem_singleton] at he
  subst he
  rfl

theorem revParseFirst_tag_rp (c0 c1 : Int) (rest : List Event) :
    RevParseFirst (Event.run "git tag" c0 :: Event.run "git rev-parse HEAD" c1 :: rest) := by
  intro e he
  have h : List.takeWhile (fun ev => !(isRevParseEv ev))
      (Event.run "git tag" c0 :: Event.run "git rev-parse HEAD" c1 :: rest) =
      [Event.run "git tag" c0] := rfl
  rw [h] at he
  rw [List.mem_singleton] at he
  subst he
  rfl

/-! ### Claim C10 -/

theorem splitWsAux_no_ws :
    ∀ (cs acc : List Char), (∀ c ∈ acc, c.isWhitespace = false) →
      ∀ tok ∈ splitWsAux cs acc, ∀ c ∈ tok, c.isWhitespace = false
  | [], acc, hacc => by
    intro tok htok c hc
    unfold splitWsAux at htok
    split at htok
    · cases htok
    · rw [List.mem_singleton] at htok
      subst htok
      exact hacc c (List.mem_reverse.1 hc)
  | ch :: cs, acc, hacc => by
    intro tok htok
    unfold splitWsAux at htok
    split at htok
    · split at htok
      · exact splitWsAux_no_ws cs [] (fun c hc => absurd hc (List.not_mem_nil c)) tok htok
      · rcases List.mem_cons.1 htok with h | h
        · subst h
          intro c hc
          exact hacc c (List.mem_reverse.1 hc)
        · exact splitWsAux_no_ws cs [] (fun c hc => absurd hc (List.not_mem_nil c)) tok h
    · refine splitWsAux_no_ws cs (ch :: acc) ?_ tok htok
      intro c hc
      rcases List.mem_cons.1 hc with h | h
      · subst h
        cases hb : c.isWhitespace
        · rfl
        · exact absurd hb (by assumption)
      · exact hacc c h

theorem idLikeValues_no_ws {content : String} :
    ∀ v ∈ idLikeValues content, ∀ c ∈ v, c.isWhitespace = false := by
  intro v hv c hc
  unfold idLikeValues at hv
  rw [List.mem_filterMap] at hv
  obtain ⟨line, hline, hval⟩ := hv
  have hv' : v = line.drop 8 := by
    by_cases h : line.take 8 = "ID_LIKE=".data
    · rw [if_pos h] at hval
      exact (Option.some.inj hval).symm
    · rw [if_neg h] at hval
      cases hval
  subst hv'
  exact splitWsAux_no_ws content.data [] (fun c hc => absurd hc (List.not_mem_nil c))
    line hline c (List.drop_subset 8 line hc)

/-- C10.  `detect_distro_like` can never return the `RedHatFedora` family:
the `/etc/os-release` content is split on whitespace, so no extracted
`ID_LIKE` value can contain a space, and the enum value `"rhel fedora"` is
unreachable. -/
theorem c10_redhat_unreachable (content : String) :
    detect_distro_like content ≠ .ok .RedHatFedora := by
  intro h
  unfold detect_distro_like at h
  rcases hv : idLikeValues content with _ | ⟨v, rest⟩
  · rw [hv] at h
    cases h
  · rcases rest with _ | ⟨v2, rest2⟩
    · rw [hv] at h
      have h' : (match DistroLike.ofValue v with
          | some d => (Except.ok d : Except PyExc DistroLike)
          | none => Except.error PyExc.valueError) =
          Except.ok DistroLike.RedHatFedora := h
      rcases ho : DistroLike.ofValue v with _ | d
      · rw [ho] at h'
        cases h'
      · rw [ho] at h'
        have hd := Except.ok.inj h'
        subst hd
        unfold DistroLike.ofValue at ho
        split at ho
        · exact DistroLike.noConfusion (Option.some.inj ho)
        · split at ho
          · have hsp : ' ' ∈ v := by
              rw [show v = "rhel fedora".data from by assumption]
              decide
            have := idLikeValues_no_ws v (hv ▸ List.mem_cons_self v []) ' ' hsp
            cases this
          · cases ho
    · rw [hv] at h
      cases h

/-! ### Claim C8 -/

/-- C8.  If the `/etc/os-release` content does not contain exactly one
`ID_LIKE=` token, or its value is not a declared `DistroLike` enum value,
`detect_distro_like` raises `ValueError`; and whenever distro detection
fails, the whole run of `install_cpython.py` stops with an exception
before any per-tag build step command has been executed. -/
theorem c8_distro_detection_fatal :
    (∀ content : String,
      ((idLikeValues content).length ≠ 1 ∨
        (∀ v, idLikeValues content = [v] → DistroLike.ofValue v = none)) →
      detect_distro_like content = .error .valueError) ∧
    (∀ (content : String) (de : PyExc), detect_distro_like content = .error de →
      ∀ (args : ArgsC) (env : Env),
        (∃ e, (mainC args content env initState).1 = .error e) ∧
        (∀ ev ∈ (mainC args content env initState).2.trace, buildStepEv ev = false)) := by
  constructor
  · intro content hcond
    unfold detect_distro_like
    rcases hv : idLikeValues content with _ | ⟨v, rest⟩
    · rfl
    · rcases rest with _ | ⟨v2, rest2⟩
      · rcases hcond with hlen | hval
        · rw [hv] at hlen
          exact absurd rfl hlen
        · have hnone := hval v hv
          show (match DistroLike.ofValue v with
            | some d => (Except.ok d : Except PyExc DistroLike)
            | none => Except.error PyExc.valueError) = Except.error PyExc.valueError
          rw [hnone]
      · rfl
  · intro content de hd args env
    rcases recordRefC_cases args env with ⟨e, hrec⟩ | ⟨e, hrec⟩ | ⟨a, hrec⟩
    · have hpre : preLoopC args content env initState =
          (.error e, ⟨1, [.run "git tag" (env.exitCode 0)]⟩) := runM_bind_error hrec
      constructor
      · exact ⟨e, by unfold mainC; rw [runM_bind_error hpre]⟩
      · intro ev hev
        unfold mainC at hev
        rw [runM_bind_error hpre] at hev
        have hev' : ev ∈ [Event.run "git tag" (env.exitCode 0)] := hev
        rw [List.mem_singleton] at hev'
        subst hev'
        rfl
    · have hpre : preLoopC args content env initState =
          (.error e, ⟨2, [.run "git tag" (env.exitCode 0),
            .run "git rev-parse HEAD" (env.exitCode 1)]⟩) := runM_bind_error hrec
      constructor
      · exact ⟨e, by unfold mainC; rw [runM_bind_error hpre]⟩
      · intro ev hev
        unfold mainC at hev
        rw [runM_bind_error hpre] at hev
        have hev' : ev ∈ [Event.run "git tag" (env.exitCode 0),
          Event.run "git rev-parse HEAD" (env.exitCode 1)] := hev
        rcases List.mem_cons.1 hev' with h | h
        · subst h
          rfl
        · rw [List.mem_singleton] at h
          subst h
          rfl
    · have hpre : preLoopC args content env initState = (.error de,
          ⟨2, [.run "git tag" (env.exitCode 0), .run "git rev-parse HEAD" (env.exitCode 1),
            .msg (">>> Initial ref: " ++ a.2), .msg ">>> Installing system dependencies"]⟩) := by
        show (recordRefC args >>= fun p => afterRefC args content p) env initState = _
        rw [runM_bind_ok hrec]
        exact afterRefC_detect_fail hd args a env _
      constructor
      · exact ⟨de, by unfold mainC; rw [runM_bind_error hpre]⟩
      · intro ev hev
        unfold mainC at hev
        rw [runM_bind_error hpre] at hev
        have hev' : ev ∈ [Event.run "git tag" (env.exitCode 0),
          Event.run "git rev-parse HEAD" (env.exitCode 1),
          Event.msg (">>> Initial ref: " ++ a.2),
          Event.msg ">>> Installing system dependencies"] := hev
        rcases List.mem_cons.1 hev' with h | h
        · subst h; rfl
        · rcases List.mem_cons.1 h with h | h
          · subst h; rfl
          · rcases List.mem_cons.1 h with h | h
            · subst h; rfl
            · rw [List.mem_singleton] at h
              subst h
              rfl

/-- C8, witness: a content with no `ID_LIKE=` token makes detection fail
and a run on it executes no build step. -/
theorem c8_distro_detection_fatal_witness :
    ((idLikeValues "ID=debian").length ≠ 1 ∨
      (∀ v, idLikeValues "ID=debian" = [v] → DistroLike.ofValue v = none)) ∧
    detect_distro_like "ID=debian" = .error .valueError ∧
    ((∃ e, (mainC ⟨some "3.0.0", none, false⟩ "ID=debian"
        ⟨fun _ => 0, fun _ => "t"⟩ initState).1 = .error e) ∧
      (∀ ev ∈ (mainC ⟨some "3.0.0", none, false⟩ "ID=debian"
        ⟨fun _ => 0, fun _ => "t"⟩ initState).2.trace, buildStepEv ev = false)) :=
  ⟨Or.inl (by decide),
    c8_distro_detection_fatal.1 "ID=debian" (Or.inl (by decide)),
    c8_distro_detection_fatal.2 "ID=debian" .valueError
      (c8_distro_detection_fatal.1 "ID=debian" (Or.inl (by decide)))
      ⟨some "3.0.0", none, false⟩ ⟨fun _ => 0, fun _ => "t"⟩⟩

/-! ### Claim C5 -/

/-- C5.  In every run of either script: (1) no repository-mutating
external command runs before the `git rev-parse HEAD` invocation that
records the original ref, and (2) whenever the pre-loop part succeeds
with recorded ref `ref` (whatever the per-tag build outcomes, which never
abort the loop), the run's trace ends with a `git checkout ref`
invocation restoring the original ref after the loop. -/
theorem c5_ref_recorded_and_restored :
    (∀ (args : ArgsC) (osr : String) (env : Env),
      RevParseFirst ((mainC args osr env initState).2.trace)) ∧
    (∀ (args : ArgsC) (osr : String) (env : Env) (tags : List String) (ref : String),
      (preLoopC args osr env initState).1 = .ok (tags, ref) →
      ∃ c t, (mainC args osr env initState).2.trace =
        t ++ [.run ("git checkout " ++ ref) c]) ∧
    (∀ (args : ArgsA) (env : Env),
      RevParseFirst ((mainA args env initState).2.trace)) ∧
    (∀ (args : ArgsA) (env : Env) (tags : List String) (ref : String),
      (preLoopA args env initState).1 = .ok (tags, ref) →
      ∃ c t, (mainA args env initState).2.trace =
        t ++ [.run ("git checkout " ++ ref) c]) := by
  refine ⟨?_, ?_, ?_, ?_⟩
  · intro args osr env
    rcases recordRefC_cases args env with ⟨e, hrec⟩ | ⟨e, hrec⟩ | ⟨a, hrec⟩
    · have hpre : preLoopC args osr env initState =
          (.error e, ⟨1, [.run "git tag" (env.exitCode 0)]⟩) := runM_bind_error hrec
      unfold mainC
      rw [runM_bind_error hpre]
      exact revParseFirst_tag _
    · have hpre : preLoopC args osr env initState =
          (.error e, ⟨2, [.run "git tag" (env.exitCode 0),
            .run "git rev-parse HEAD" (env.exitCode 1)]⟩) := runM_bind_error hrec
      unfold mainC
      rw [runM_bind_error hpre]
      exact revParseFirst_tag_rp _ _ []
    · obtain ⟨t1, ht1⟩ := ext_afterRefC args osr a env
        ⟨2, [.run "git tag" (env.exitCode 0), .run "git rev-parse HEAD" (env.exitCode 1)]⟩
      rcases haf : afterRefC args osr a env
          ⟨2, [.run "git tag" (env.exitCode 0), .run "git rev-parse HEAD" (env.exitCode 1)]⟩
        with ⟨r3, s3⟩
      rw [haf] at ht1
      have hpre : preLoopC args osr env initState = (r3, s3) := by
        show (recordRefC args >>= fun p => afterRefC args osr p) env initState = _
        rw [runM_bind_ok hrec]
        exact haf
      cases r3 with
      | error e3 =>
        unfold mainC
        rw [runM_bind_error hpre]
        rw [show s3.trace = Event.run "git tag" (env.exitCode 0) ::
          Event.run "git rev-parse HEAD" (env.exitCode 1) :: t1 from ht1]
        exact revParseFirst_tag_rp _ _ t1
      | ok p =>
        unfold mainC
        rw [runM_bind_ok hpre]
        obtain ⟨t2, ht2⟩ := ext_restC p env s3
        rw [ht2, show s3.trace = Event.run "git tag" (env.exitCode 0) ::
          Event.run "git rev-parse HEAD" (env.exitCode 1) :: t1 from ht1]
        exact revParseFirst_tag_rp _ _ (t1 ++ t2)
  · intro args osr env tags ref h
    rcases hpre : preLoopC args osr env initState with ⟨r, s1⟩
    rw [hpre] at h
    cases r with
    | error e => cases h
    | ok p =>
      have hp : p = (tags, ref) := Except.ok.inj h
      subst hp
      unfold mainC
      rw [runM_bind_ok hpre]
      obtain ⟨c, t, ht⟩ := restC_trace (tags, ref) env s1
      exact ⟨c, s1.trace ++ t, by rw [ht, List.append_assoc]⟩
  · intro args env
    rcases recordRefA_cases args env with ⟨e, hrec⟩ | ⟨e, hrec⟩ | ⟨a, hrec⟩
    · have hpre : preLoopA args env initState =
          (.error e, ⟨1, [.run "git tag" (env.exitCode 0)]⟩) := runM_bind_error hrec
      unfold mainA
      rw [runM_bind_error hpre]
      exact revParseFirst_tag _
    · have hpre : preLoopA args env initState =
          (.error e, ⟨2, [.run "git tag" (env.exitCode 0),
            .run "git rev-parse HEAD" (env.exitCode 1)]⟩) := runM_bind_error hrec
      unfold mainA
      rw [runM_bind_error hpre]
      exact revParseFirst_tag_rp _ _ []
    · obtain ⟨t1, ht1⟩ := ext_afterRefA args a env
        ⟨2, [.run "git tag" (env.exitCode 0), .run "git rev-parse HEAD" (env.exitCode 1)]⟩
      rcases haf : afterRefA args a env
          ⟨2, [.run "git tag" (env.exitCode 0), .run "git rev-parse HEAD" (env.exitCode 1)]⟩
        with ⟨r3, s3⟩
      rw [haf] at ht1
      have hpre : preLoopA args env initState = (r3, s3) := by
        show (recordRefA args >>= fun p => afterRefA args p) env initState = _
        rw [runM_bind_ok hrec]
        exact haf
      cases r3 with
      | error e3 =>
        unfold mainA
        rw [runM_bind_error hpre]
        rw [show s3.trace = Event.run "git tag" (env.exitCode 0) ::
          Event.run "git rev-parse HEAD" (env.exitCode 1) :: t1 from ht1]
        exact revParseFirst_tag_rp _ _ t1
      | ok p =>
        unfold mainA
        rw [runM_bind_ok hpre]
        obtain ⟨t2, ht2⟩ := ext_restA p env s3
        rw [ht2, show s3.trace = Event.run "git tag" (env.exitCode 0) ::
          Event.run "git rev-parse HEAD" (env.exitCode 1) :: t1 from ht1]
        exact revParseFirst_tag_rp _ _ (t1 ++ t2)
  · intro args env tags ref h
    rcases hpre : preLoopA args env initState with ⟨r, s1⟩
    rw [hpre] at h
    cases r with
    | error e => cases h
    | ok p =>
      have hp : p = (tags, ref) := Except.ok.inj h
      subst hp
      unfold mainA
      rw [runM_bind_ok hpre]
      obtain ⟨c, t, ht⟩ := restA_trace (tags, ref) env s1
      exact ⟨c, s1.trace ++ t, by rw [ht, List.append_assoc]⟩

/-- C5, witness: a fully successful concrete run of both scripts, in which
the pre-loop part returns the recorded ref `abc` and the theorem yields
the ordering and restoration facts. -/
theorem c5_ref_recorded_and_restored_witness :
    ((preLoopC ⟨some "3.0.0", none, false⟩ "ID_LIKE=debian"
      ⟨fun _ => 0, fun n => if n = 0 then "" else "abc"⟩ initState).1 = .ok ([], "abc")) ∧
    RevParseFirst ((mainC ⟨some "3.0.0", none, false⟩ "ID_LIKE=debian"
      ⟨fun _ => 0, fun n => if n = 0 then "" else "abc"⟩ initState).2.trace) ∧
    (∃ c t, (mainC ⟨some "3.0.0", none, false⟩ "ID_LIKE=debian"
      ⟨fun _ => 0, fun n => if n = 0 then "" else "abc"⟩ initState).2.trace =
        t ++ [.run ("git checkout " ++ "abc") c]) ∧
    ((preLoopA ⟨"3.0.0", false⟩
      ⟨fun _ => 0, fun n => if n = 0 then "" else "abc"⟩ initState).1 = .ok ([], "abc")) ∧
    RevParseFirst ((mainA ⟨"3.0.0", false⟩
      ⟨fun _ => 0, fun n => if n = 0 then "" else "abc"⟩ initState).2.trace) ∧
    (∃ c t, (mainA ⟨"3.0.0", false⟩
      ⟨fun _ => 0, fun n => if n = 0 then "" else "abc"⟩ initState).2.trace =
        t ++ [.run ("git checkout " ++ "abc") c]) :=
  ⟨rfl,
    c5_ref_recorded_and_restored.1 ⟨some "3.0.0", none, false⟩ "ID_LIKE=debian" _,
    c5_ref_recorded_and_restored.2.1 ⟨some "3.0.0", none, false⟩ "ID_LIKE=debian"
      ⟨fun _ => 0, fun n => if n = 0 then "" else "abc"⟩ [] "abc" rfl,
    rfl,
    c5_ref_recorded_and_restored.2.2.1 ⟨"3.0.0", false⟩ _,
    c5_ref_recorded_and_restored.2.2.2 ⟨"3.0.0", false⟩
      ⟨fun _ => 0, fun n => if n = 0 then "" else "abc"⟩ [] "abc" rfl⟩

/-! ### Claim C4 -/

/-- C4, counterexample.  The claim says no external command failure
terminates the whole run.  In this concrete run a tag is selected, but
the sixth invocation — `git pull`, which lies outside the per-tag
`try/except` — exits non-zero, so the `OSError` propagates: the run ends
with `OSError` and no per-tag build step is ever executed. -/
theorem c4_counterexample :
    select_version_tags ["3.9.1"] (some "3.0.0") none =
      .ok [("3.9.1", ⟨3, 9, 1, [], []⟩)] ∧
    (mainC ⟨some "3.0.0", none, true⟩ "ID_LIKE=debian"
      ⟨fun n => if n = 5 then 1 else 0, fun n => if n = 0 then "3.9.1" else "abc"⟩
      initState).1 = .error .osError ∧
    ((mainC ⟨some "3.0.0", none, true⟩ "ID_LIKE=debian"
      ⟨fun n => if n = 5 then 1 else 0, fun n => if n = 0 then "3.9.1" else "abc"⟩
      initState).2.trace.all (fun ev => !(buildStepEv ev))) = true :=
  ⟨rfl, rfl, rfl⟩

/-- C4, amended.  A non-zero exit of an external command is caught, logged
and turned into a per-tag skip only inside the per-tag build loop: (1)
`safe_run_process` logs the captured output and raises `OSError` on a
non-zero exit; (2) the per-tag loop of `install_cpython.py` never
propagates an exception and attempts every tag of its list, whatever its
environment — so a build-step failure abandons only that tag's sequence
and the run proceeds to the next tag.  Failures of commands outside the
loop (tag listing, ref query, dependency installation, pull, restore)
are not caught and terminate the run, as the counterexample shows. -/
theorem c4_per_tag_isolation :
    (∀ (cmd : String) (env : Env) (s : RState), env.exitCode s.next ≠ 0 →
      safe_run_process cmd env s = (.error .osError,
        ⟨s.next + 1, s.trace ++ [.run cmd (env.exitCode s.next), .logFail cmd]⟩)) ∧
    (∀ (ts : List String) (env : Env) (s : RState),
      (∃ s', buildLoopC ts env s = (.ok (), s')) ∧
      (∀ t ∈ ts, Event.msg (">>> Getting " ++ t) ∈ (buildLoopC ts env s).2.trace)) :=
  ⟨fun _ _ _ h => safe_run_fail h,
    fun ts env s => ⟨buildLoopC_ok ts env s, fun t ht => buildLoopC_attempts ts env s t ht⟩⟩

/-- C4, witness: a failing command logs and raises, and a loop over one
tag in an all-failing environment still completes and attempts the tag. -/
theorem c4_per_tag_isolation_witness :
    ((⟨fun _ => 1, fun _ => ""⟩ : Env).exitCode initState.next ≠ 0) ∧
    safe_run_process "make -j" ⟨fun _ => 1, fun _ => ""⟩ initState =
      (.error .osError, ⟨1, [.run "make -j" 1, .logFail "make -j"]⟩) ∧
    (∃ s', buildLoopC ["3.9.1"] ⟨fun _ => 1, fun _ => ""⟩ initState = (.ok (), s')) ∧
    (∀ t ∈ ["3.9.1"], Event.msg (">>> Getting " ++ t) ∈
      (buildLoopC ["3.9.1"] ⟨fun _ => 1, fun _ => ""⟩ initState).2.trace) :=
  ⟨by decide,
    c4_per_tag_isolation.1 "make -j" ⟨fun _ => 1, fun _ => ""⟩ initState (by decide),
    (c4_per_tag_isolation.2 ["3.9.1"] ⟨fun _ => 1, fun _ => ""⟩ initState).1,
    (c4_per_tag_isolation.2 ["3.9.1"] ⟨fun _ => 1, fun _ => ""⟩ initState).2⟩
